import Mathlib

/-!
# CryptoChallenge: the decryption engine of `main.cpp`

Shallow embedding of `src/CryptoChallenge/main.cpp`.

* `size_t` is the 64-bit unsigned type: values are natural numbers and every
  operation that can leave the range is reduced modulo `2 ^ 64`.
* A `std::string` is a list of characters; its length fits in `size_t`, which
  the theorems that need it assume as `s.length < 2 ^ 64`. The characters of a
  C++ string are the code points below 256; nothing here depends on the range.
* `std::cout` is an explicit list of bytes, the most recent byte last.
* The running `transposition` counter, passed by reference in the source, is
  threaded through a `State` together with the output.
* An access outside the string (undefined behaviour in C++) makes the result
  `none`; the source has no other way to fail.
-/

namespace CryptoChallenge

/-! ## Machine arithmetic on `size_t` -/

/-- Number of values of `size_t`. -/
def SIZE : Nat := 2 ^ 64

/-- Sentinel `std::string::npos`, the largest `size_t`. -/
def npos : Nat := SIZE - 1

/-- Left shift on `size_t`; bits shifted past bit 63 are lost. -/
def shl64 (a k : Nat) : Nat := (a <<< k) % SIZE

/-- Subtraction on `size_t`, wrapping around below zero. -/
def sub64 (a b : Nat) : Nat := (a + SIZE - b % SIZE) % SIZE

/-- Addition on `size_t`, wrapping around. -/
def add64 (a b : Nat) : Nat := (a + b) % SIZE

/-- Multiplication on `size_t`, wrapping around. -/
def mul64 (a b : Nat) : Nat := (a * b) % SIZE

/-! ## Program state -/

/-- What the block decryptors read and write: the bytes sent to `std::cout`
so far and the `transposition` counter they receive by reference. -/
structure State where
  cout : List Nat
  transposition : Nat
deriving DecidableEq

/-- Specialisation `decryptBlock<2>`: decrypts a single character. -/
def decryptBlock2 (crypted1 crypted2 _crypted3 _crypted4 : Nat) (st : State) : State :=
  let decrypted := shl64 crypted1 2 ||| (crypted2 >>> 4)
  let decrypted := sub64 decrypted st.transposition
  let decrypted := decrypted &&& 0x7F
  { cout := st.cout ++ [decrypted], transposition := add64 st.transposition 1 }

/-- Specialisation `decryptBlock<3>`: decrypts two characters. -/
def decryptBlock3 (crypted1 crypted2 crypted3 crypted4 : Nat) (st : State) : State :=
  let st := decryptBlock2 crypted1 crypted2 crypted3 crypted4 st
  let decrypted := shl64 (crypted2 &&& 0xF) 4 ||| (crypted3 >>> 2)
  let decrypted := sub64 decrypted st.transposition
  let decrypted := decrypted &&& 0x7F
  { cout := st.cout ++ [decrypted], transposition := add64 st.transposition 1 }

/-- Specialisation `decryptBlock<4>`: decrypts three characters. -/
def decryptBlock4 (crypted1 crypted2 crypted3 crypted4 : Nat) (st : State) : State :=
  let st := decryptBlock3 crypted1 crypted2 crypted3 crypted4 st
  let decrypted := shl64 (crypted3 &&& 0x3) 6 ||| crypted4
  let decrypted := sub64 decrypted st.transposition
  let decrypted := decrypted &&& 0x7F
  { cout := st.cout ++ [decrypted], transposition := add64 st.transposition 1 }

/-! ## Alphabet -/

/-- The table `base64`. -/
def base64 : List Char :=
  "ABCDEFGHIJKLMNOPQRSTUVWXYZabcdefghijklmnopqrstuvwxyz0123456789+/".toList

/-- The member `std::string::find(char)`, searching from position `pos`:
the first position holding `c`, or `npos`. -/
def find : List Char → Char → Nat → Nat
  | [], _, _ => npos
  | x :: xs, c, pos => if x = c then pos else find xs c (pos + 1)

/-- Function `indexOfChar`. -/
def indexOfChar (c : Char) : Nat :=
  find base64 c 0

/-! ## Stream decryptor -/

/-- Expression `str[pos]`: the character at `pos`, the terminating NUL at
`pos = str.length()`, undefined beyond. -/
def charAt (str : List Char) (pos : Nat) : Option Char :=
  if pos < str.length then str[pos]?
  else if pos = str.length then some (Char.ofNat 0)
  else none

/-- Function `getCryptedBytes`: the four values written through the tuple of
references, read at `offset`, `offset + 1`, `offset + 2`, `offset + 3`. -/
def getCryptedBytes (str : List Char) (offset : Nat) : Option (Nat × Nat × Nat × Nat) := do
  let a ← charAt str offset
  let b ← charAt str (add64 offset 1)
  let c ← charAt str (add64 offset 2)
  let d ← charAt str (add64 offset 3)
  pure (indexOfChar a, indexOfChar b, indexOfChar c, indexOfChar d)

/-- The loop `for (size_t i = 0, n = numberOfCompleteBlocks; i < n; ++i)`,
by recursion on the number `n - i` of iterations still to run; `++i` cannot
wrap around, `i` being below `n`. -/
def decryptLoop (str : List Char) : Nat → Nat → State → Option State
  | 0, _, st => some st
  | remaining + 1, i, st => do
    let (c1, c2, c3, c4) ← getCryptedBytes str (mul64 i 4)
    decryptLoop str remaining (i + 1) (decryptBlock4 c1 c2 c3 c4 st)

/-- The `switch (uselessBytesInLastBlock)` on the last block. -/
def lastBlock (uselessBytesInLastBlock c1 c2 c3 c4 : Nat) (st : State) : State :=
  match uselessBytesInLastBlock with
  | 0 => decryptBlock4 c1 c2 c3 c4 st
  | 1 => decryptBlock3 c1 c2 c3 c4 st
  | 2 => decryptBlock2 c1 c2 c3 c4 st
  | _ => st

/-- Function `decrypt`, run with `cout` already written to the output stream:
the stream after the call, line terminator (byte 10) included. -/
def decrypt (str : List Char) (cout : List Nat) : Option (List Nat) :=
  let cryptedBlockSize := 4
  let numberOfBlocks := str.length / cryptedBlockSize
  let numberOfCompleteBlocks := sub64 numberOfBlocks 1
  let offsetLastBlock := mul64 numberOfCompleteBlocks cryptedBlockSize
  -- `str.begin() + offsetLastBlock + 2` has to stay inside the string
  if offsetLastBlock + 2 ≤ str.length then do
    let uselessBytesInLastBlock := (str.drop (offsetLastBlock + 2)).countP (fun caractere => caractere == '=')
    let st : State := { cout := cout, transposition := 79 }
    let st ← decryptLoop str numberOfCompleteBlocks 0 st
    let (c1, c2, c3, c4) ← getCryptedBytes str (mul64 numberOfCompleteBlocks cryptedBlockSize)
    let st := lastBlock uselessBytesInLastBlock c1 c2 c3 c4 st
    pure (st.cout ++ [10])
  else none

/-! ## Reference notions the claims are stated with -/

/-- The message is a valid ciphertext of `n` groups ending in exactly `k` pad
markers: `4 * n` symbols with `n ≥ 1`, the last `k ≤ 2` of them `=`, all the
others in the alphabet. -/
def ValidCiphertext (s : List Char) (n k : Nat) : Prop :=
  1 ≤ n ∧ s.length = 4 * n ∧ k ≤ 2 ∧
    (∀ c ∈ s.take (s.length - k), c ∈ base64) ∧
    (∀ c ∈ s.drop (s.length - k), c = '=')

instance (s : List Char) (n k : Nat) : Decidable (ValidCiphertext s n k) := by
  unfold ValidCiphertext; infer_instance

/-- Sextet carried by a symbol in plain base64: its position in the alphabet,
and no bits for the pad marker. -/
def sextet (c : Char) : Nat :=
  if c = '=' then 0 else base64.indexOf c

/-- Plain base64 unpacking of one group: the four sextets form a 24-bit
number, read as three bytes; a group padded with one marker carries the first
two bytes, a group padded with two markers the first byte. -/
def unpackGroup (a b c d : Char) : List Nat :=
  let v := sextet a * 2 ^ 18 + sextet b * 2 ^ 12 + sextet c * 2 ^ 6 + sextet d
  let bytes := [v / 2 ^ 16 % 256, v / 2 ^ 8 % 256, v % 256]
  if c = '=' then bytes.take 1 else if d = '=' then bytes.take 2 else bytes

/-- Plain base64 unpacking of a message, group after group. -/
def base64Unpack : List Char → List Nat
  | a :: b :: c :: d :: rest => unpackGroup a b c d ++ base64Unpack rest
  | _ => []

/-- The residue `(r - t) mod 128` of the integers, as a byte. -/
def unmask (r t : Nat) : Nat :=
  (((r : Int) - (t : Int)) % 128).toNat

/-- Symbol of the alphabet at an index. -/
def symbolAt (i : Nat) : Char :=
  base64.getD i '='

/-- Plain base64 packing: three bytes become four sextets, each mapped through
the alphabet; a final group of one or two bytes is padded with `=`. -/
def base64Pack : List Nat → List Char
  | [] => []
  | [x] => [symbolAt (x / 4), symbolAt (x % 4 * 16), '=', '=']
  | [x, y] => [symbolAt (x / 4), symbolAt (x % 4 * 16 + y / 16), symbolAt (y % 16 * 4), '=']
  | x :: y :: z :: rest =>
    symbolAt (x / 4) :: symbolAt (x % 4 * 16 + y / 16) :: symbolAt (y % 16 * 4 + z / 64) ::
      symbolAt (z % 64) :: base64Pack rest

/-- Keystream addition: the byte at position `i` becomes `(P[i] + t + i)`
masked to 7 bits, `t` being the counter at the first position. -/
def addCounter (t : Nat) : List Nat → List Nat
  | [] => []
  | p :: ps => ((p + t) &&& 0x7F) :: addCounter (t + 1) ps

/-- The inverse operation of the round-trip law. -/
def encrypt (P : List Nat) : List Char :=
  base64Pack (addCounter 79 P)

/-- Number of pad markers `decrypt` counts on a message of at least four
symbols: the `=` from the third symbol of the last group to the end. -/
def padCount (s : List Char) : Nat :=
  (s.drop (4 * (s.length / 4 - 1) + 2)).countP (fun caractere => caractere == '=')

/-- What `decrypt` does to the state on a message of at least four symbols,
read off the list of symbols: every group followed by at least four more
symbols goes through `decryptBlock<4>`, the group after it is the last block,
and its pad count is taken from its third symbol onwards. -/
def decryptList : List Char → State → State
  | a :: b :: c :: d :: rest, st =>
    if rest.length < 4 then
      lastBlock ((c :: d :: rest).countP (fun caractere => caractere == '='))
        (indexOfChar a) (indexOfChar b) (indexOfChar c) (indexOfChar d) st
    else
      decryptList rest
        (decryptBlock4 (indexOfChar a) (indexOfChar b) (indexOfChar c) (indexOfChar d) st)
  | _, st => st

/-- The four statements every specialisation ends with, on the value it has
reconstructed: `decrypted -= transposition; decrypted &= 0x7F;
std::cout << char(decrypted); ++transposition;`. -/
def emit (decrypted : Nat) (st : State) : State :=
  { cout := st.cout ++ [sub64 decrypted st.transposition &&& 0x7F],
    transposition := add64 st.transposition 1 }

/-- Bytes `unmask r t, unmask r' (t + 1), ...` for raw bytes `r, r', ...`. -/
def unmaskFrom (t : Nat) : List Nat → List Nat
  | [] => []
  | r :: rs => unmask r t :: unmaskFrom (t + 1) rs

/-- The state with the bytes `pre` written to the output stream before
everything else. -/
def prepend (pre : List Nat) (st : State) : State :=
  { cout := pre ++ st.cout, transposition := st.transposition }

/-- Function `getCryptedBytes` with the alphabet lookup as a parameter; the
source's lookup is `indexOfChar`. -/
def getCryptedBytesWith (lookup : Char → Nat) (str : List Char) (offset : Nat) :
    Option (Nat × Nat × Nat × Nat) := do
  let a ← charAt str offset
  let b ← charAt str (add64 offset 1)
  let c ← charAt str (add64 offset 2)
  let d ← charAt str (add64 offset 3)
  pure (lookup a, lookup b, lookup c, lookup d)

/-- The loop of `decrypt` with the alphabet lookup as a parameter. -/
def decryptLoopWith (lookup : Char → Nat) (str : List Char) : Nat → Nat → State → Option State
  | 0, _, st => some st
  | remaining + 1, i, st => do
    let (c1, c2, c3, c4) ← getCryptedBytesWith lookup str (mul64 i 4)
    decryptLoopWith lookup str remaining (i + 1) (decryptBlock4 c1 c2 c3 c4 st)

/-- Function `decrypt` with the alphabet lookup as a parameter: the same
statements, `lookup` standing where the source calls `indexOfChar`. -/
def decryptWith (lookup : Char → Nat) (str : List Char) (cout : List Nat) :
    Option (List Nat) :=
  let cryptedBlockSize := 4
  let numberOfBlocks := str.length / cryptedBlockSize
  let numberOfCompleteBlocks := sub64 numberOfBlocks 1
  let offsetLastBlock := mul64 numberOfCompleteBlocks cryptedBlockSize
  if offsetLastBlock + 2 ≤ str.length then do
    let uselessBytesInLastBlock := (str.drop (offsetLastBlock + 2)).countP (fun caractere => caractere == '=')
    let st : State := { cout := cout, transposition := 79 }
    let st ← decryptLoopWith lookup str numberOfCompleteBlocks 0 st
    let (c1, c2, c3, c4) ← getCryptedBytesWith lookup str (mul64 numberOfCompleteBlocks cryptedBlockSize)
    let st := lastBlock uselessBytesInLastBlock c1 c2 c3 c4 st
    pure (st.cout ++ [10])
  else none

/-! ## Machine arithmetic -/

theorem and_0x7F (x : Nat) : x &&& 0x7F = x % 128 :=
  Nat.and_pow_two_sub_one_eq_mod x 7

theorem and_0xF (x : Nat) : x &&& 0xF = x % 16 :=
  Nat.and_pow_two_sub_one_eq_mod x 4

theorem and_0x3 (x : Nat) : x &&& 0x3 = x % 4 :=
  Nat.and_pow_two_sub_one_eq_mod x 2

theorem shr_4 (x : Nat) : x >>> 4 = x / 16 :=
  Nat.shiftRight_eq_div_pow x 4

theorem shr_2 (x : Nat) : x >>> 2 = x / 4 :=
  Nat.shiftRight_eq_div_pow x 2

/-- The low seven bits of a wrapping difference are the residue of the
integer difference modulo 128. -/
theorem sub64_and_0x7F (r t : Nat) : sub64 r t &&& 0x7F = unmask r t := by
  rw [and_0x7F]
  unfold sub64 unmask SIZE
  omega

theorem unmask_lt (r t : Nat) : unmask r t < 128 := by
  unfold unmask
  omega

/-- A left shift whose vacated low bits are filled by `b`. -/
theorem shl64_or (a b k : Nat) (hb : b < 2 ^ k) (ha : a * 2 ^ k < SIZE) :
    shl64 a k ||| b = a * 2 ^ k + b := by
  unfold shl64
  rw [Nat.shiftLeft_eq, Nat.mod_eq_of_lt ha, Nat.mul_comm a, Nat.mul_add_lt_is_or hb]

/-! ## Block decryptors -/

theorem decryptBlock2_emit (c1 c2 c3 c4 : Nat) (st : State) :
    decryptBlock2 c1 c2 c3 c4 st = emit (shl64 c1 2 ||| c2 >>> 4) st := rfl

theorem decryptBlock3_emit (c1 c2 c3 c4 : Nat) (st : State) :
    decryptBlock3 c1 c2 c3 c4 st =
      emit (shl64 (c2 &&& 0xF) 4 ||| c3 >>> 2) (decryptBlock2 c1 c2 c3 c4 st) := rfl

theorem decryptBlock4_emit (c1 c2 c3 c4 : Nat) (st : State) :
    decryptBlock4 c1 c2 c3 c4 st =
      emit (shl64 (c3 &&& 0x3) 6 ||| c4) (decryptBlock3 c1 c2 c3 c4 st) := rfl

theorem emit_eq (x : Nat) (out : List Nat) (t : Nat) (ht : t + 1 < SIZE) :
    emit x { cout := out, transposition := t } =
      { cout := out ++ [sub64 x t &&& 0x7F], transposition := t + 1 } := by
  simp only [emit, add64, Nat.mod_eq_of_lt ht]

theorem emit_cout (x : Nat) (st : State) :
    (emit x st).cout = st.cout ++ [unmask x st.transposition] := by
  simp only [emit, sub64_and_0x7F]

/-! ## Reading the string -/

theorem charAt_eq (s : List Char) (i : Nat) (a : Char) (h : s[i]? = some a) :
    charAt s i = some a := by
  have hi : i < s.length := by
    by_contra hcon
    rw [List.getElem?_eq_none (Nat.le_of_not_lt hcon)] at h
    exact Option.noConfusion h
  simp only [charAt, hi, if_true, List.get?_eq_getElem?, h]

theorem drop_four (s : List Char) (o : Nat) (h : o + 4 ≤ s.length) :
    ∃ a b c d, s.drop o = a :: b :: c :: d :: s.drop (o + 4) := by
  refine ⟨s[o], s[o + 1], s[o + 2], s[o + 3], ?_⟩
  rw [List.drop_eq_getElem_cons (by omega : o < s.length),
    List.drop_eq_getElem_cons (by omega : o + 1 < s.length),
    List.drop_eq_getElem_cons (by omega : o + 1 + 1 < s.length),
    List.drop_eq_getElem_cons (by omega : o + 1 + 1 + 1 < s.length)]

theorem getCryptedBytes_of_drop (s : List Char) (o : Nat) (a b c d : Char) (rest : List Char)
    (h : s.drop o = a :: b :: c :: d :: rest) (ho : o + 3 < SIZE) :
    getCryptedBytes s o =
      some (indexOfChar a, indexOfChar b, indexOfChar c, indexOfChar d) := by
  have h0 : s[o]? = some a := by
    have := List.getElem?_drop s o 0
    rw [h] at this; simpa using this.symm
  have h1 : s[o + 1]? = some b := by
    have := List.getElem?_drop s o 1
    rw [h] at this; simpa using this.symm
  have h2 : s[o + 2]? = some c := by
    have := List.getElem?_drop s o 2
    rw [h] at this; simpa using this.symm
  have h3 : s[o + 3]? = some d := by
    have := List.getElem?_drop s o 3
    rw [h] at this; simpa using this.symm
  have e1 : add64 o 1 = o + 1 := Nat.mod_eq_of_lt (by omega)
  have e2 : add64 o 2 = o + 2 := Nat.mod_eq_of_lt (by omega)
  have e3 : add64 o 3 = o + 3 := Nat.mod_eq_of_lt (by omega)
  simp only [getCryptedBytes, e1, e2, e3, charAt_eq s _ _ h0, charAt_eq s _ _ h1,
    charAt_eq s _ _ h2, charAt_eq s _ _ h3, Option.bind_eq_bind, Option.some_bind,
    Option.pure_def]

/-- The loop followed by the last block does what `decryptList` reads off the
symbols from the loop's current position onwards. -/
theorem loop_then_last (s : List Char) (hs : s.length < SIZE) :
    ∀ (k i : Nat) (st : State), 4 * (i + k) + 4 ≤ s.length → s.length < 4 * (i + k) + 8 →
      ∃ st1 c1 c2 c3 c4, decryptLoop s k i st = some st1 ∧
        getCryptedBytes s (4 * (i + k)) = some (c1, c2, c3, c4) ∧
        lastBlock ((s.drop (4 * (i + k) + 2)).countP (fun caractere => caractere == '='))
          c1 c2 c3 c4 st1 = decryptList (s.drop (4 * i)) st := by
  intro k
  induction k with
  | zero =>
    intro i st h1 h2
    obtain ⟨a, b, c, d, hd⟩ := drop_four s (4 * i) (by omega)
    have hrest : (s.drop (4 * i + 4)).length < 4 := by
      rw [List.length_drop]; omega
    have hd2 : s.drop (4 * i + 2) = c :: d :: s.drop (4 * i + 4) := by
      have : s.drop (4 * i + 2) = (s.drop (4 * i)).drop 2 := by
        rw [List.drop_drop]
      rw [this, hd]; rfl
    refine ⟨st, indexOfChar a, indexOfChar b, indexOfChar c, indexOfChar d, rfl, ?_, ?_⟩
    · exact getCryptedBytes_of_drop s _ a b c d _ hd (by omega)
    · simp only [Nat.add_zero, hd, hd2, decryptList, hrest, if_true]
  | succ k ih =>
    intro i st h1 h2
    obtain ⟨a, b, c, d, hd⟩ := drop_four s (4 * i) (by omega)
    have hrest : ¬ (s.drop (4 * i + 4)).length < 4 := by
      rw [List.length_drop]; omega
    have hidx : i + 1 + k = i + (k + 1) := by omega
    obtain ⟨st1, c1, c2, c3, c4, e1, e2, e3⟩ :=
      ih (i + 1) (decryptBlock4 (indexOfChar a) (indexOfChar b) (indexOfChar c)
        (indexOfChar d) st) (by omega) (by omega)
    rw [hidx] at e2 e3
    refine ⟨st1, c1, c2, c3, c4, ?_, e2, ?_⟩
    · have hm : mul64 i 4 = 4 * i := by
        unfold mul64; rw [Nat.mod_eq_of_lt (by omega)]; omega
      simp only [decryptLoop, hm, getCryptedBytes_of_drop s _ a b c d _ hd (by omega),
        Option.bind_eq_bind, Option.some_bind, e1]
    · rw [e3, hd]
      simp only [decryptList, hrest, if_false]
      rfl

/-- Function `decrypt` on a message of at least four symbols never leaves the
string, and its output is the one `decryptList` reads off the symbols. -/
theorem decrypt_eq (s : List Char) (cout : List Nat) (h4 : 4 ≤ s.length)
    (hs : s.length < SIZE) :
    decrypt s cout =
      some ((decryptList s { cout := cout, transposition := 79 }).cout ++ [10]) := by
  have hn : sub64 (s.length / 4) 1 = s.length / 4 - 1 := by
    unfold sub64 SIZE; unfold SIZE at hs; omega
  have hm : mul64 (s.length / 4 - 1) 4 = 4 * (s.length / 4 - 1) := by
    unfold mul64 SIZE; unfold SIZE at hs; omega
  obtain ⟨st1, c1, c2, c3, c4, e1, e2, e3⟩ :=
    loop_then_last s hs (s.length / 4 - 1) 0 { cout := cout, transposition := 79 }
      (by omega) (by omega)
  simp only [Nat.zero_add, Nat.mul_zero, List.drop_zero] at e1 e2 e3
  have hle : 4 * (s.length / 4 - 1) + 2 ≤ s.length := by omega
  simp only [decrypt, hn, hm, hle, if_true, e1, e2, Option.bind_eq_bind, Option.some_bind,
    Option.pure_def, e3]

/-! ## Alphabet facts -/

theorem base64_length : base64.length = 64 := by decide

theorem pad_not_mem_base64 : '=' ∉ base64 := by decide

theorem indexOfChar_symbolAt : ∀ i < 64, indexOfChar (symbolAt i) = i := by decide

theorem symbolAt_mem : ∀ i < 64, symbolAt i ∈ base64 := by decide

theorem find_eq (l : List Char) (c : Char) :
    ∀ pos, find l c pos = if c ∈ l then pos + l.indexOf c else npos := by
  induction l with
  | nil => intro pos; simp [find]
  | cons x xs ih =>
    intro pos
    by_cases hx : x = c
    · subst hx; simp [find]
    · have hx2 : ¬ c = x := fun h => hx h.symm
      simp only [find, hx, if_false, ih, List.mem_cons, hx2, false_or]
      split
      · rw [List.indexOf_cons_ne _ hx]; omega
      · rfl

theorem indexOfChar_of_mem (c : Char) (h : c ∈ base64) : indexOfChar c = base64.indexOf c := by
  simp [indexOfChar, find_eq, h]

theorem indexOfChar_of_not_mem (c : Char) (h : c ∉ base64) : indexOfChar c = npos := by
  simp [indexOfChar, find_eq, h]

theorem indexOfChar_lt (c : Char) (h : c ∈ base64) : indexOfChar c < 64 := by
  rw [indexOfChar_of_mem c h, ← base64_length]
  exact List.indexOf_lt_length.mpr h

theorem sextet_of_mem (c : Char) (h : c ∈ base64) : sextet c = indexOfChar c := by
  have hne : c ≠ '=' := fun e => pad_not_mem_base64 (e ▸ h)
  simp [sextet, hne, indexOfChar_of_mem c h]

/-! ## Output of the block decryptors -/

theorem decryptBlock2_cout (c1 c2 c3 c4 : Nat) (st : State) :
    ∃ b1, (decryptBlock2 c1 c2 c3 c4 st).cout = st.cout ++ [b1] ∧ b1 < 128 := by
  simp only [decryptBlock2_emit, emit_cout]
  exact ⟨_, rfl, unmask_lt _ _⟩

theorem decryptBlock3_cout (c1 c2 c3 c4 : Nat) (st : State) :
    ∃ b1 b2, (decryptBlock3 c1 c2 c3 c4 st).cout = st.cout ++ [b1, b2] ∧
      b1 < 128 ∧ b2 < 128 := by
  simp only [decryptBlock3_emit, decryptBlock2_emit, emit_cout, List.append_assoc]
  exact ⟨_, _, rfl, unmask_lt _ _, unmask_lt _ _⟩

theorem decryptBlock4_cout (c1 c2 c3 c4 : Nat) (st : State) :
    ∃ b1 b2 b3, (decryptBlock4 c1 c2 c3 c4 st).cout = st.cout ++ [b1, b2, b3] ∧
      b1 < 128 ∧ b2 < 128 ∧ b3 < 128 := by
  simp only [decryptBlock4_emit, decryptBlock3_emit, decryptBlock2_emit, emit_cout, List.append_assoc]
  exact ⟨_, _, _, rfl, unmask_lt _ _, unmask_lt _ _, unmask_lt _ _⟩

theorem lastBlock_cout (k c1 c2 c3 c4 : Nat) (st : State) :
    ∃ bs, (lastBlock k c1 c2 c3 c4 st).cout = st.cout ++ bs ∧ (∀ b ∈ bs, b < 128) ∧
      bs.length = 3 - k := by
  match k with
  | 0 =>
    obtain ⟨b1, b2, b3, h, h1, h2, h3⟩ := decryptBlock4_cout c1 c2 c3 c4 st
    exact ⟨[b1, b2, b3], h, by simp [h1, h2, h3], rfl⟩
  | 1 =>
    obtain ⟨b1, b2, h, h1, h2⟩ := decryptBlock3_cout c1 c2 c3 c4 st
    exact ⟨[b1, b2], h, by simp [h1, h2], rfl⟩
  | 2 =>
    obtain ⟨b1, h, h1⟩ := decryptBlock2_cout c1 c2 c3 c4 st
    exact ⟨[b1], h, by simp [h1], rfl⟩
  | k + 3 => exact ⟨[], by simp [lastBlock], by simp, by simp⟩

/-! ## Induction over groups of four symbols -/

theorem four_induction {motive : List Char → Prop}
    (short : ∀ l, l.length < 4 → motive l)
    (group : ∀ a b c d rest, motive rest → motive (a :: b :: c :: d :: rest)) :
    ∀ l, motive l
  | [] => short _ (by simp)
  | [_] => short _ (by simp)
  | [_, _] => short _ (by simp)
  | [_, _, _] => short _ (by simp)
  | a :: b :: c :: d :: rest => group a b c d rest (four_induction short group rest)

theorem padCount_group (a b c d : Char) (rest : List Char) (h : 4 ≤ rest.length) :
    padCount (a :: b :: c :: d :: rest) = padCount rest := by
  unfold padCount
  have e : 4 * ((a :: b :: c :: d :: rest).length / 4 - 1) + 2
      = (4 * (rest.length / 4 - 1) + 2) + 4 := by
    simp only [List.length_cons]; omega
  rw [e]
  rfl

theorem padCount_last (a b c d : Char) (rest : List Char) (h : rest.length < 4) :
    padCount (a :: b :: c :: d :: rest)
      = (c :: d :: rest).countP (fun caractere => caractere == '=') := by
  unfold padCount
  have e : 4 * ((a :: b :: c :: d :: rest).length / 4 - 1) + 2 = 2 := by
    simp only [List.length_cons]; omega
  rw [e]
  rfl

/-- The bytes `decryptList` appends: all below 128, three for every group but
the last, and three minus the pad count for the last. -/
theorem decryptList_cout : ∀ (l : List Char) (st : State), 4 ≤ l.length →
    ∃ bs, (decryptList l st).cout = st.cout ++ bs ∧ (∀ b ∈ bs, b < 128) ∧
      bs.length = 3 * (l.length / 4 - 1) + (3 - padCount l) := by
  intro l
  induction l using four_induction with
  | short l hl => intro st h; omega
  | group a b c d rest ih =>
    intro st _
    by_cases hrest : rest.length < 4
    · obtain ⟨bs, h1, h2, h3⟩ := lastBlock_cout
        ((c :: d :: rest).countP (fun caractere => caractere == '='))
        (indexOfChar a) (indexOfChar b) (indexOfChar c) (indexOfChar d) st
      refine ⟨bs, ?_, h2, ?_⟩
      · simp only [decryptList, hrest, if_true, h1]
      · rw [h3, padCount_last a b c d rest hrest]
        simp only [List.length_cons]; omega
    · obtain ⟨b1, b2, b3, h, h1, h2, h3⟩ := decryptBlock4_cout
        (indexOfChar a) (indexOfChar b) (indexOfChar c) (indexOfChar d) st
      obtain ⟨bs, e1, e2, e3⟩ := ih (decryptBlock4
        (indexOfChar a) (indexOfChar b) (indexOfChar c) (indexOfChar d) st) (by omega)
      refine ⟨[b1, b2, b3] ++ bs, ?_, ?_, ?_⟩
      · simp only [decryptList, hrest, if_false, e1, h, List.append_assoc]
      · intro x hx
        simp only [List.mem_append, List.mem_cons, List.mem_singleton, List.not_mem_nil,
          or_false] at hx
        rcases hx with (rfl | rfl | rfl) | hx
        · exact h1
        · exact h2
        · exact h3
        · exact e2 x hx
      · rw [padCount_group a b c d rest (by omega), List.length_append, e3]
        simp only [List.length_cons, List.length_nil]; omega

/-! ## Valid ciphertexts, group by group -/

theorem valid_last (a b c d : Char) (n k : Nat) (h : ValidCiphertext [a, b, c, d] n k) :
    n = 1 ∧ a ∈ base64 ∧ b ∈ base64 ∧
      ((k = 0 ∧ c ∈ base64 ∧ d ∈ base64) ∨ (k = 1 ∧ c ∈ base64 ∧ d = '=') ∨
        (k = 2 ∧ c = '=' ∧ d = '=')) := by
  obtain ⟨h1, h2, h3, h4, h5⟩ := h
  simp only [List.length_cons, List.length_nil] at h2 h4 h5
  have hk : k = 0 ∨ k = 1 ∨ k = 2 := by omega
  rcases hk with rfl | rfl | rfl
  · simp at h4
    exact ⟨by omega, h4.1, h4.2.1, Or.inl ⟨rfl, h4.2.2.1, h4.2.2.2⟩⟩
  · simp at h4 h5
    exact ⟨by omega, h4.1, h4.2.1, Or.inr (Or.inl ⟨rfl, h4.2.2, h5⟩)⟩
  · simp at h4 h5
    exact ⟨by omega, h4.1, h4.2, Or.inr (Or.inr ⟨rfl, h5.1, h5.2⟩)⟩

theorem valid_group (a b c d : Char) (rest : List Char) (n k : Nat) (hrest : 4 ≤ rest.length)
    (h : ValidCiphertext (a :: b :: c :: d :: rest) n k) :
    a ∈ base64 ∧ b ∈ base64 ∧ c ∈ base64 ∧ d ∈ base64 ∧ ValidCiphertext rest (n - 1) k := by
  obtain ⟨h1, h2, h3, h4, h5⟩ := h
  have e : (a :: b :: c :: d :: rest).length - k = (rest.length - k) + 4 := by
    simp only [List.length_cons]; omega
  rw [e] at h4 h5
  simp only [List.take_succ_cons, List.mem_cons, forall_eq_or_imp] at h4
  simp only [List.drop_succ_cons] at h5
  simp only [List.length_cons] at h2
  exact ⟨h4.1, h4.2.1, h4.2.2.1, h4.2.2.2.1, by omega, by omega, h3, h4.2.2.2.2, h5⟩

theorem ne_pad_of_mem (c : Char) (h : c ∈ base64) : (c == '=') = false := by
  have hne : c ≠ '=' := fun e => pad_not_mem_base64 (e ▸ h)
  simpa using hne

/-! ## Raw bytes of a group -/

theorem raw_byte1 (i1 i2 : Nat) (h1 : i1 < 64) (h2 : i2 < 64) :
    shl64 i1 2 ||| i2 >>> 4 = i1 * 4 + i2 / 16 := by
  rw [shr_4, shl64_or i1 (i2 / 16) 2 (by norm_num; omega) (by unfold SIZE; omega)]
  norm_num

theorem raw_byte2 (i2 i3 : Nat) (h3 : i3 < 64) :
    shl64 (i2 &&& 0xF) 4 ||| i3 >>> 2 = i2 % 16 * 16 + i3 / 4 := by
  rw [shr_2, and_0xF, shl64_or (i2 % 16) (i3 / 4) 4 (by norm_num; omega) (by unfold SIZE; omega)]
  norm_num

theorem raw_byte3 (i3 i4 : Nat) (h4 : i4 < 64) :
    shl64 (i3 &&& 0x3) 6 ||| i4 = i3 % 4 * 64 + i4 := by
  rw [and_0x3, shl64_or (i3 % 4) i4 6 (by norm_num; omega) (by unfold SIZE; omega)]
  norm_num

theorem sextet_pad : sextet '=' = 0 := by
  simp [sextet]

theorem unpackGroup_full (a b c d : Char) (ha : a ∈ base64) (hb : b ∈ base64)
    (hc : c ∈ base64) (hd : d ∈ base64) :
    unpackGroup a b c d =
      [shl64 (indexOfChar a) 2 ||| indexOfChar b >>> 4,
        shl64 (indexOfChar b &&& 0xF) 4 ||| indexOfChar c >>> 2,
        shl64 (indexOfChar c &&& 0x3) 6 ||| indexOfChar d] := by
  have h1 := indexOfChar_lt a ha
  have h2 := indexOfChar_lt b hb
  have h3 := indexOfChar_lt c hc
  have h4 := indexOfChar_lt d hd
  have hcne : c ≠ '=' := fun e => pad_not_mem_base64 (e ▸ hc)
  have hdne : d ≠ '=' := fun e => pad_not_mem_base64 (e ▸ hd)
  rw [raw_byte1 _ _ h1 h2, raw_byte2 _ _ h3, raw_byte3 _ _ h4]
  simp only [unpackGroup, hcne, hdne, if_false, sextet_of_mem _ ha, sextet_of_mem _ hb,
    sextet_of_mem _ hc, sextet_of_mem _ hd]
  norm_num
  refine ⟨?_, ?_, ?_⟩ <;> omega

theorem unpackGroup_pad1 (a b c : Char) (ha : a ∈ base64) (hb : b ∈ base64)
    (hc : c ∈ base64) :
    unpackGroup a b c '=' =
      [shl64 (indexOfChar a) 2 ||| indexOfChar b >>> 4,
        shl64 (indexOfChar b &&& 0xF) 4 ||| indexOfChar c >>> 2] := by
  have h1 := indexOfChar_lt a ha
  have h2 := indexOfChar_lt b hb
  have h3 := indexOfChar_lt c hc
  have hcne : c ≠ '=' := fun e => pad_not_mem_base64 (e ▸ hc)
  rw [raw_byte1 _ _ h1 h2, raw_byte2 _ _ h3]
  simp only [unpackGroup, hcne, if_false, if_true, sextet_of_mem _ ha, sextet_of_mem _ hb,
    sextet_of_mem _ hc, sextet_pad, List.take]
  norm_num
  refine ⟨?_, ?_⟩ <;> omega

theorem unpackGroup_pad2 (a b : Char) (ha : a ∈ base64) (hb : b ∈ base64) :
    unpackGroup a b '=' '=' = [shl64 (indexOfChar a) 2 ||| indexOfChar b >>> 4] := by
  have h1 := indexOfChar_lt a ha
  have h2 := indexOfChar_lt b hb
  rw [raw_byte1 _ _ h1 h2]
  simp only [unpackGroup, if_true, sextet_of_mem _ ha, sextet_of_mem _ hb, sextet_pad, List.take]
  norm_num
  omega

/-! ## Closed form of the block decryptors -/

theorem decryptBlock2_eq (c1 c2 c3 c4 t : Nat) (out : List Nat) (ht : t + 1 < SIZE) :
    decryptBlock2 c1 c2 c3 c4 { cout := out, transposition := t } =
      { cout := out ++ [unmask (shl64 c1 2 ||| c2 >>> 4) t], transposition := t + 1 } := by
  simp only [decryptBlock2_emit, emit_eq _ _ _ ht, sub64_and_0x7F]

theorem decryptBlock3_eq (c1 c2 c3 c4 t : Nat) (out : List Nat) (ht : t + 2 < SIZE) :
    decryptBlock3 c1 c2 c3 c4 { cout := out, transposition := t } =
      { cout := out ++ [unmask (shl64 c1 2 ||| c2 >>> 4) t,
          unmask (shl64 (c2 &&& 0xF) 4 ||| c3 >>> 2) (t + 1)],
        transposition := t + 2 } := by
  simp only [decryptBlock3_emit, decryptBlock2_eq _ _ _ _ _ _ (by omega : t + 1 < SIZE),
    emit_eq _ _ _ (by omega : t + 1 + 1 < SIZE), sub64_and_0x7F, List.append_assoc,
    List.singleton_append]

theorem decryptBlock4_eq (c1 c2 c3 c4 t : Nat) (out : List Nat) (ht : t + 3 < SIZE) :
    decryptBlock4 c1 c2 c3 c4 { cout := out, transposition := t } =
      { cout := out ++ [unmask (shl64 c1 2 ||| c2 >>> 4) t,
          unmask (shl64 (c2 &&& 0xF) 4 ||| c3 >>> 2) (t + 1),
          unmask (shl64 (c3 &&& 0x3) 6 ||| c4) (t + 2)],
        transposition := t + 3 } := by
  simp only [decryptBlock4_emit, decryptBlock3_eq _ _ _ _ _ _ (by omega : t + 2 < SIZE),
    emit_eq _ _ _ (by omega : t + 2 + 1 < SIZE), sub64_and_0x7F, List.append_assoc,
    List.cons_append, List.nil_append]

/-! ## Function `decrypt` on valid ciphertexts -/

theorem unmaskFrom_getElem? : ∀ (rs : List Nat) (t j : Nat),
    (unmaskFrom t rs)[j]? = (rs[j]?).map (fun r => unmask r (t + j))
  | [], _, _ => by simp [unmaskFrom]
  | r :: rs, t, 0 => by simp [unmaskFrom]
  | r :: rs, t, j + 1 => by
    simp only [unmaskFrom, List.getElem?_cons_succ, unmaskFrom_getElem? rs (t + 1) j]
    have e : t + 1 + j = t + (j + 1) := by omega
    rw [e]

theorem valid_short (l : List Char) (n k : Nat) (hl : l.length < 4)
    (h : ValidCiphertext l n k) : False := by
  obtain ⟨h1, h2, _⟩ := h
  omega

theorem valid_rest_nil (a b c d : Char) (rest : List Char) (n k : Nat) (hrest : rest.length < 4)
    (h : ValidCiphertext (a :: b :: c :: d :: rest) n k) : rest = [] := by
  obtain ⟨h1, h2, _⟩ := h
  simp only [List.length_cons] at h2
  exact List.length_eq_zero.mp (by omega)

/-- On a valid ciphertext the state after `decryptList` holds the unpacked
bytes, each lowered by the counter of its position. -/
theorem decryptList_valid : ∀ (l : List Char) (n k : Nat) (out : List Nat) (t : Nat),
    ValidCiphertext l n k → t + 3 * n < SIZE →
    decryptList l { cout := out, transposition := t } =
      { cout := out ++ unmaskFrom t (base64Unpack l), transposition := t + (3 * n - k) } := by
  intro l
  induction l using four_induction with
  | short l hl => intro n k out t hv; exact (valid_short l n k hl hv).elim
  | group a b c d rest ih =>
    intro n k out t hv ht
    by_cases hrest : rest.length < 4
    · have hnil := valid_rest_nil a b c d rest n k hrest hv
      subst hnil
      obtain ⟨hn, ha, hb, hcase⟩ := valid_last a b c d n k hv
      subst hn
      rcases hcase with ⟨rfl, hc, hd⟩ | ⟨rfl, hc, rfl⟩ | ⟨rfl, rfl, rfl⟩
      · have e : base64Unpack [a, b, c, d] = unpackGroup a b c d := by
          simp only [base64Unpack, List.append_nil]
        rw [e, unpackGroup_full a b c d ha hb hc hd]
        simp [decryptList, lastBlock, ne_pad_of_mem c hc, ne_pad_of_mem d hd,
          decryptBlock4_eq _ _ _ _ _ _ (by omega : t + 3 < SIZE), unmaskFrom]
      · have e : base64Unpack [a, b, c, '='] = unpackGroup a b c '=' := by
          simp only [base64Unpack, List.append_nil]
        rw [e, unpackGroup_pad1 a b c ha hb hc]
        simp [decryptList, lastBlock, ne_pad_of_mem c hc,
          decryptBlock3_eq _ _ _ _ _ _ (by omega : t + 2 < SIZE), unmaskFrom]
      · have e : base64Unpack [a, b, '=', '='] = unpackGroup a b '=' '=' := by
          simp only [base64Unpack, List.append_nil]
        rw [e, unpackGroup_pad2 a b ha hb]
        simp [decryptList, lastBlock,
          decryptBlock2_eq _ _ _ _ _ _ (by omega : t + 1 < SIZE), unmaskFrom]
    · obtain ⟨ha, hb, hc, hd, hv2⟩ := valid_group a b c d rest n k (by omega) hv
      have hn : 1 ≤ n - 1 := hv2.1
      have hk : k ≤ 2 := hv2.2.2.1
      simp only [decryptList, hrest, if_false,
        decryptBlock4_eq _ _ _ _ _ _ (by omega : t + 3 < SIZE)]
      rw [ih (n - 1) k _ (t + 3) hv2 (by omega)]
      simp only [base64Unpack, unpackGroup_full a b c d ha hb hc hd, unmaskFrom,
        List.append_assoc, List.cons_append, List.nil_append]
      congr 1
      omega

theorem padCount_valid : ∀ (l : List Char) (n k : Nat), ValidCiphertext l n k →
    padCount l = k := by
  intro l
  induction l using four_induction with
  | short l hl => intro n k hv; exact (valid_short l n k hl hv).elim
  | group a b c d rest ih =>
    intro n k hv
    by_cases hrest : rest.length < 4
    · have hnil := valid_rest_nil a b c d rest n k hrest hv
      subst hnil
      obtain ⟨hn, ha, hb, hcase⟩ := valid_last a b c d n k hv
      rw [padCount_last a b c d [] hrest]
      rcases hcase with ⟨rfl, hc, hd⟩ | ⟨rfl, hc, rfl⟩ | ⟨rfl, rfl, rfl⟩
      · simp [ne_pad_of_mem c hc, ne_pad_of_mem d hd]
      · simp [ne_pad_of_mem c hc]
      · simp
    · obtain ⟨_, _, _, _, hv2⟩ := valid_group a b c d rest n k (by omega) hv
      rw [padCount_group a b c d rest (by omega)]
      exact ih (n - 1) k hv2

theorem decryptLoop_cout (s : List Char) : ∀ (k i : Nat) (st st1 : State),
    decryptLoop s k i st = some st1 →
    ∃ bs, st1.cout = st.cout ++ bs ∧ ∀ b ∈ bs, b < 128 := by
  intro k
  induction k with
  | zero =>
    intro i st st1 h
    simp only [decryptLoop, Option.some.injEq] at h
    subst h
    exact ⟨[], by simp, by simp⟩
  | succ k ih =>
    intro i st st1 h
    simp only [decryptLoop, Option.bind_eq_bind] at h
    cases hg : getCryptedBytes s (mul64 i 4) with
    | none => rw [hg] at h; exact Option.noConfusion h
    | some q =>
      obtain ⟨c1, c2, c3, c4⟩ := q
      rw [hg] at h
      simp only [Option.some_bind] at h
      obtain ⟨bs, e1, e2⟩ := ih _ _ _ h
      obtain ⟨b1, b2, b3, e, h1, h2, h3⟩ := decryptBlock4_cout c1 c2 c3 c4 st
      refine ⟨[b1, b2, b3] ++ bs, ?_, ?_⟩
      · rw [e1, e, List.append_assoc]
      · intro x hx
        simp only [List.mem_append, List.mem_cons, List.mem_singleton, List.not_mem_nil,
          or_false] at hx
        rcases hx with (rfl | rfl | rfl) | hx
        · exact h1
        · exact h2
        · exact h3
        · exact e2 x hx

/-! ## Round trip -/

theorem three_induction {motive : List Nat → Prop} (nil : motive [])
    (one : ∀ x, motive [x]) (two : ∀ x y, motive [x, y])
    (group : ∀ x y z rest, motive rest → motive (x :: y :: z :: rest)) :
    ∀ l, motive l
  | [] => nil
  | [x] => one x
  | [x, y] => two x y
  | x :: y :: z :: rest => group x y z rest (three_induction nil one two group rest)

theorem addCounter_length : ∀ (P : List Nat) (t : Nat), (addCounter t P).length = P.length
  | [], _ => rfl
  | p :: ps, t => by simp only [addCounter, List.length_cons, addCounter_length ps (t + 1)]

theorem base64Pack_length (Q : List Nat) : (base64Pack Q).length = 4 * ((Q.length + 2) / 3) := by
  induction Q using three_induction with
  | nil => rfl
  | one x => simp [base64Pack]
  | two x y => simp [base64Pack]
  | group x y z rest ih =>
    simp only [base64Pack, List.length_cons, ih]
    omega

theorem unmask_of_residue (raw x t : Nat) (hx : x < 128) (h : raw = (x + t) % 128) :
    unmask raw t = x := by
  unfold unmask
  omega

/-- The last block of a packed message carrying one byte. -/
theorem decryptList_pack_one (m t : Nat) (out : List Nat) (hm : m < 128) (ht : t + 1 < SIZE) :
    decryptList (base64Pack [m]) { cout := out, transposition := t } =
      { cout := out ++ [unmask m t], transposition := t + 1 } := by
  have e1 : shl64 (m / 4) 2 ||| (m % 4 * 16) >>> 4 = m := by
    rw [raw_byte1 _ _ (by omega) (by omega)]; omega
  simp only [base64Pack, decryptList, List.length_nil, Nat.zero_lt_succ, if_true]
  have hc : List.countP (fun caractere => caractere == '=') ['=', '='] = 2 := by decide
  rw [hc]
  simp only [lastBlock, decryptBlock2_eq _ _ _ _ _ _ ht,
    indexOfChar_symbolAt (m / 4) (by omega), indexOfChar_symbolAt (m % 4 * 16) (by omega), e1]

/-- The last block of a packed message carrying two bytes. -/
theorem decryptList_pack_two (m1 m2 t : Nat) (out : List Nat) (h1 : m1 < 128) (h2 : m2 < 128)
    (ht : t + 2 < SIZE) :
    decryptList (base64Pack [m1, m2]) { cout := out, transposition := t } =
      { cout := out ++ [unmask m1 t, unmask m2 (t + 1)], transposition := t + 2 } := by
  have e1 : shl64 (m1 / 4) 2 ||| (m1 % 4 * 16 + m2 / 16) >>> 4 = m1 := by
    rw [raw_byte1 _ _ (by omega) (by omega)]; omega
  have e2 : shl64 ((m1 % 4 * 16 + m2 / 16) &&& 0xF) 4 ||| (m2 % 16 * 4) >>> 2 = m2 := by
    rw [raw_byte2 _ _ (by omega)]; omega
  have hp := ne_pad_of_mem _ (symbolAt_mem (m2 % 16 * 4) (by omega))
  simp only [base64Pack, decryptList, List.length_nil, Nat.zero_lt_succ, if_true]
  have hc : List.countP (fun caractere => caractere == '=') [symbolAt (m2 % 16 * 4), '='] = 1 := by
    simp [List.countP_cons, hp]
  rw [hc]
  simp only [lastBlock, decryptBlock3_eq _ _ _ _ _ _ ht,
    indexOfChar_symbolAt (m1 / 4) (by omega),
    indexOfChar_symbolAt (m1 % 4 * 16 + m2 / 16) (by omega),
    indexOfChar_symbolAt (m2 % 16 * 4) (by omega), e1, e2]

/-- A packed group of three bytes through `decryptBlock<4>`. -/
theorem decryptBlock4_pack (m1 m2 m3 t : Nat) (out : List Nat) (h1 : m1 < 128) (h2 : m2 < 128)
    (h3 : m3 < 128) (ht : t + 3 < SIZE) :
    decryptBlock4 (indexOfChar (symbolAt (m1 / 4)))
      (indexOfChar (symbolAt (m1 % 4 * 16 + m2 / 16)))
      (indexOfChar (symbolAt (m2 % 16 * 4 + m3 / 64))) (indexOfChar (symbolAt (m3 % 64)))
      { cout := out, transposition := t } =
      { cout := out ++ [unmask m1 t, unmask m2 (t + 1), unmask m3 (t + 2)],
        transposition := t + 3 } := by
  have e1 : shl64 (m1 / 4) 2 ||| (m1 % 4 * 16 + m2 / 16) >>> 4 = m1 := by
    rw [raw_byte1 _ _ (by omega) (by omega)]; omega
  have e2 : shl64 ((m1 % 4 * 16 + m2 / 16) &&& 0xF) 4 ||| (m2 % 16 * 4 + m3 / 64) >>> 2
      = m2 := by
    rw [raw_byte2 _ _ (by omega)]; omega
  have e3 : shl64 ((m2 % 16 * 4 + m3 / 64) &&& 0x3) 6 ||| (m3 % 64) = m3 := by
    rw [raw_byte3 _ _ (by omega)]; omega
  simp only [decryptBlock4_eq _ _ _ _ _ _ ht,
    indexOfChar_symbolAt (m1 / 4) (by omega),
    indexOfChar_symbolAt (m1 % 4 * 16 + m2 / 16) (by omega),
    indexOfChar_symbolAt (m2 % 16 * 4 + m3 / 64) (by omega),
    indexOfChar_symbolAt (m3 % 64) (by omega), e1, e2, e3]

theorem decryptList_pack : ∀ (P : List Nat) (out : List Nat) (t : Nat),
    P ≠ [] → (∀ p ∈ P, p < 128) → t + P.length < SIZE →
    decryptList (base64Pack (addCounter t P)) { cout := out, transposition := t } =
      { cout := out ++ P, transposition := t + P.length } := by
  intro P
  induction P using three_induction with
  | nil => intro out t h; exact (h rfl).elim
  | one x =>
    intro out t _ hP ht
    have hx : x < 128 := hP x (by simp)
    simp only [List.length_cons, List.length_nil] at ht
    simp only [addCounter, and_0x7F]
    rw [decryptList_pack_one _ t out (Nat.mod_lt _ (by decide)) (by omega),
      unmask_of_residue _ x t hx rfl]
    rfl
  | two x y =>
    intro out t _ hP ht
    have hx : x < 128 := hP x (by simp)
    have hy : y < 128 := hP y (by simp)
    simp only [List.length_cons, List.length_nil] at ht
    simp only [addCounter, and_0x7F]
    rw [decryptList_pack_two _ _ t out (Nat.mod_lt _ (by decide)) (Nat.mod_lt _ (by decide))
      (by omega), unmask_of_residue _ x t hx rfl, unmask_of_residue _ y (t + 1) hy rfl]
    rfl
  | group x y z rest ih =>
    intro out t _ hP ht
    have hx : x < 128 := hP x (by simp)
    have hy : y < 128 := hP y (by simp)
    have hz : z < 128 := hP z (by simp)
    have hrestP : ∀ p ∈ rest, p < 128 := fun p hp => hP p (by simp [hp])
    simp only [List.length_cons] at ht
    have hb := decryptBlock4_pack ((x + t) % 128) ((y + (t + 1)) % 128)
      ((z + (t + 1 + 1)) % 128) t out (Nat.mod_lt _ (by decide)) (Nat.mod_lt _ (by decide))
      (Nat.mod_lt _ (by decide)) (by omega)
    rw [unmask_of_residue _ x t hx rfl, unmask_of_residue _ y (t + 1) hy rfl,
      unmask_of_residue _ z (t + 2) hz rfl] at hb
    have hlen : (base64Pack (addCounter (t + 1 + 1 + 1) rest)).length
        = 4 * ((rest.length + 2) / 3) := by
      rw [base64Pack_length, addCounter_length]
    by_cases hrest : rest = []
    · subst hrest
      have hp3 := ne_pad_of_mem _ (symbolAt_mem
        (((y + (t + 1)) % 128) % 16 * 4 + ((z + (t + 1 + 1)) % 128) / 64) (by omega))
      have hp4 := ne_pad_of_mem _ (symbolAt_mem (((z + (t + 1 + 1)) % 128) % 64) (by omega))
      simp only [addCounter, and_0x7F, base64Pack, decryptList, List.length_nil,
        Nat.zero_lt_succ, if_true, List.countP_cons, List.countP_nil, hp3, hp4, lastBlock,
        Bool.false_eq_true, if_false, Nat.add_zero, hb]
      rfl
    · have h4 : ¬ (base64Pack (addCounter (t + 1 + 1 + 1) rest)).length < 4 := by
        have : 1 ≤ rest.length := List.length_pos.mpr hrest
        rw [hlen]; omega
      simp only [addCounter, and_0x7F, base64Pack, decryptList, h4, if_false, hb]
      rw [ih _ (t + 1 + 1 + 1) hrest hrestP (by omega)]
      simp only [List.append_assoc, List.cons_append, List.nil_append, List.length_cons]
      congr 1
      omega

/-! ## Residues modulo 128 -/

theorem unmask_congr (r r1 t t1 : Nat) (hr : r % 128 = r1 % 128) (ht : t % 128 = t1 % 128) :
    unmask r t = unmask r1 t1 := by
  unfold unmask
  omega

theorem or_mod_two_pow (a b n : Nat) : (a ||| b) % 2 ^ n = a % 2 ^ n ||| b % 2 ^ n := by
  apply Nat.eq_of_testBit_eq
  intro i
  simp only [Nat.testBit_mod_two_pow, Nat.testBit_or]
  by_cases h : i < n <;> simp [h]

theorem or_mod_128 (a b : Nat) : (a ||| b) % 128 = a % 128 ||| b % 128 :=
  or_mod_two_pow a b 7

theorem shl64_add_32 (i1 : Nat) (h : i1 < 32) : shl64 (i1 + 32) 2 = shl64 i1 2 + 128 := by
  unfold shl64 SIZE
  rw [Nat.shiftLeft_eq, Nat.shiftLeft_eq]
  omega

theorem raw_byte1_high_bit (i1 i2 : Nat) (h : i1 < 32) :
    (shl64 (i1 + 32) 2 ||| i2 >>> 4) % 128 = (shl64 i1 2 ||| i2 >>> 4) % 128 := by
  rw [or_mod_128, or_mod_128 (shl64 i1 2), shl64_add_32 i1 h, Nat.add_mod_right]

theorem emit_congr (x y : Nat) (st : State) (h : x % 128 = y % 128) : emit x st = emit y st := by
  simp only [emit, sub64_and_0x7F, unmask_congr x y _ _ h rfl]

/-! ## Output written before the call -/

theorem emit_prepend (pre : List Nat) (x : Nat) (st : State) :
    emit x (prepend pre st) = prepend pre (emit x st) := by
  simp only [emit, prepend, List.append_assoc]

theorem decryptBlock2_prepend (pre : List Nat) (c1 c2 c3 c4 : Nat) (st : State) :
    decryptBlock2 c1 c2 c3 c4 (prepend pre st) = prepend pre (decryptBlock2 c1 c2 c3 c4 st) := by
  simp only [decryptBlock2_emit, emit_prepend]

theorem decryptBlock3_prepend (pre : List Nat) (c1 c2 c3 c4 : Nat) (st : State) :
    decryptBlock3 c1 c2 c3 c4 (prepend pre st) = prepend pre (decryptBlock3 c1 c2 c3 c4 st) := by
  simp only [decryptBlock3_emit, decryptBlock2_prepend, emit_prepend]

theorem decryptBlock4_prepend (pre : List Nat) (c1 c2 c3 c4 : Nat) (st : State) :
    decryptBlock4 c1 c2 c3 c4 (prepend pre st) = prepend pre (decryptBlock4 c1 c2 c3 c4 st) := by
  simp only [decryptBlock4_emit, decryptBlock3_prepend, emit_prepend]

theorem lastBlock_prepend (pre : List Nat) (k c1 c2 c3 c4 : Nat) (st : State) :
    lastBlock k c1 c2 c3 c4 (prepend pre st) = prepend pre (lastBlock k c1 c2 c3 c4 st) := by
  match k with
  | 0 => exact decryptBlock4_prepend pre c1 c2 c3 c4 st
  | 1 => exact decryptBlock3_prepend pre c1 c2 c3 c4 st
  | 2 => exact decryptBlock2_prepend pre c1 c2 c3 c4 st
  | k + 3 => rfl

theorem decryptLoop_prepend (pre : List Nat) (s : List Char) : ∀ (k i : Nat) (st : State),
    decryptLoop s k i (prepend pre st) = (decryptLoop s k i st).map (prepend pre) := by
  intro k
  induction k with
  | zero => intro i st; rfl
  | succ k ih =>
    intro i st
    simp only [decryptLoop, Option.bind_eq_bind]
    cases getCryptedBytes s (mul64 i 4) with
    | none => rfl
    | some q =>
      obtain ⟨c1, c2, c3, c4⟩ := q
      simp only [Option.some_bind, decryptBlock4_prepend, ih]

/-- Bytes already in the output stream stay in front of what `decrypt` writes,
and do not change what it writes. -/
theorem decrypt_prepend (s : List Char) (pre cout : List Nat) :
    decrypt s (pre ++ cout) = (decrypt s cout).map (fun out => pre ++ out) := by
  have e : ({ cout := pre ++ cout, transposition := 79 } : State)
      = prepend pre { cout := cout, transposition := 79 } := rfl
  unfold decrypt
  simp only [Option.bind_eq_bind, Option.pure_def, e, decryptLoop_prepend]
  split
  · cases decryptLoop s (sub64 (s.length / 4) 1) 0 { cout := cout, transposition := 79 } with
    | none => rfl
    | some st1 =>
      cases getCryptedBytes s (mul64 (sub64 (s.length / 4) 1) 4) with
      | none => rfl
      | some q =>
        obtain ⟨c1, c2, c3, c4⟩ := q
        simp only [Option.map_some', Option.some_bind, lastBlock_prepend]
        simp only [prepend, List.append_assoc]
  · rfl

/-! ## The pad count of a message of whole groups -/

theorem padCount_eq_source (s : List Char) (h4 : 4 ≤ s.length) (hs : s.length < SIZE) :
    (s.drop (mul64 (sub64 (s.length / 4) 1) 4 + 2)).countP (fun caractere => caractere == '=')
      = padCount s := by
  have hn : sub64 (s.length / 4) 1 = s.length / 4 - 1 := by
    unfold sub64 SIZE; unfold SIZE at hs; omega
  have hm : mul64 (s.length / 4 - 1) 4 = 4 * (s.length / 4 - 1) := by
    unfold mul64 SIZE; unfold SIZE at hs; omega
  rw [hn, hm]
  rfl

theorem padCount_last_two (s : List Char) (n : Nat) (hlen : s.length = 4 * n) (hn : 1 ≤ n) :
    padCount s = (s.drop (s.length - 2)).countP (fun caractere => caractere == '=') := by
  unfold padCount
  have e : 4 * (s.length / 4 - 1) + 2 = s.length - 2 := by omega
  rw [e]

theorem padCount_le_two (s : List Char) (n : Nat) (hlen : s.length = 4 * n) (hn : 1 ≤ n) :
    padCount s ≤ 2 := by
  rw [padCount_last_two s n hlen hn]
  have h := List.countP_le_length (fun caractere => caractere == '=')
    (l := s.drop (s.length - 2))
  rw [List.length_drop] at h
  omega

/-! ## A message followed by another -/

theorem decryptList_group (a b c d : Char) (rest : List Char) (st : State)
    (h : 4 ≤ rest.length) :
    decryptList (a :: b :: c :: d :: rest) st = decryptList rest
      (decryptBlock4 (indexOfChar a) (indexOfChar b) (indexOfChar c) (indexOfChar d) st) := by
  have h' : ¬ rest.length < 4 := by omega
  simp only [decryptList, h', if_false]

theorem decryptList_last (a b c d : Char) (rest : List Char) (st : State)
    (h : rest.length < 4) :
    decryptList (a :: b :: c :: d :: rest) st =
      lastBlock ((c :: d :: rest).countP (fun caractere => caractere == '='))
        (indexOfChar a) (indexOfChar b) (indexOfChar c) (indexOfChar d) st := by
  simp only [decryptList, h, if_true]

/-- Groups that end without pad marker go through `decryptBlock<4>` whether
or not more groups follow. -/
theorem decryptList_append : ∀ (a : List Char), a.length % 4 = 0 → 0 < a.length →
    padCount a = 0 → ∀ (b : List Char) (st : State), 4 ≤ b.length →
    decryptList (a ++ b) st = decryptList b (decryptList a st) := by
  intro a
  induction a using four_induction with
  | short l hl => intro h1 h2; omega
  | group x y z w rest ih =>
    intro h1 _ hp b st hb
    simp only [List.length_cons] at h1
    by_cases hrest : rest.length < 4
    · have hnil : rest = [] := List.length_eq_zero.mp (by omega)
      subst hnil
      rw [padCount_last x y z w [] hrest] at hp
      have e : [x, y, z, w] ++ b = x :: y :: z :: w :: b := rfl
      rw [e, decryptList_group x y z w b st hb, decryptList_last x y z w [] st hrest, hp]
      rfl
    · have hr4 : 4 ≤ rest.length := by omega
      have e : (x :: y :: z :: w :: rest) ++ b = x :: y :: z :: w :: (rest ++ b) := rfl
      rw [padCount_group x y z w rest hr4] at hp
      rw [e, decryptList_group x y z w (rest ++ b) st (by rw [List.length_append]; omega),
        decryptList_group x y z w rest st hr4]
      exact ih (by omega : rest.length % 4 = 0) (by omega : 0 < rest.length) hp b _ hb

/-! ## The lookup as a parameter -/

theorem decryptBlock2_ignores (i1 i2 i3 i4 j3 j4 : Nat) (st : State) :
    decryptBlock2 i1 i2 j3 j4 st = decryptBlock2 i1 i2 i3 i4 st := by
  rw [decryptBlock2_emit, decryptBlock2_emit]

theorem decryptBlock3_ignores (i1 i2 i3 i4 j4 : Nat) (st : State) :
    decryptBlock3 i1 i2 i3 j4 st = decryptBlock3 i1 i2 i3 i4 st := by
  rw [decryptBlock3_emit, decryptBlock3_emit, decryptBlock2_ignores i1 i2 i3 i4 i3 j4 st]

theorem decryptLoopWith_indexOfChar (s : List Char) : ∀ (k i : Nat) (st : State),
    decryptLoopWith indexOfChar s k i st = decryptLoop s k i st := by
  intro k
  induction k with
  | zero => intro i st; rfl
  | succ k ih =>
    intro i st
    simp only [decryptLoopWith, decryptLoop, Option.bind_eq_bind]
    have e : getCryptedBytesWith indexOfChar s (mul64 i 4) = getCryptedBytes s (mul64 i 4) := rfl
    rw [e]
    cases getCryptedBytes s (mul64 i 4) with
    | none => rfl
    | some q =>
      obtain ⟨c1, c2, c3, c4⟩ := q
      simp only [Option.some_bind, ih]

/-- With `indexOfChar` as the lookup, `decryptWith` is `decrypt`. -/
theorem decryptWith_indexOfChar (s : List Char) (cout : List Nat) :
    decryptWith indexOfChar s cout = decrypt s cout := by
  unfold decryptWith decrypt
  simp only [decryptLoopWith_indexOfChar]
  rfl

theorem getCryptedBytesWith_of_drop (lookup : Char → Nat) (s : List Char) (o : Nat)
    (a b c d : Char) (rest : List Char)
    (h : s.drop o = a :: b :: c :: d :: rest) (ho : o + 3 < SIZE) :
    getCryptedBytesWith lookup s o = some (lookup a, lookup b, lookup c, lookup d) := by
  have h0 : s[o]? = some a := by
    have := List.getElem?_drop s o 0
    rw [h] at this; simpa using this.symm
  have h1 : s[o + 1]? = some b := by
    have := List.getElem?_drop s o 1
    rw [h] at this; simpa using this.symm
  have h2 : s[o + 2]? = some c := by
    have := List.getElem?_drop s o 2
    rw [h] at this; simpa using this.symm
  have h3 : s[o + 3]? = some d := by
    have := List.getElem?_drop s o 3
    rw [h] at this; simpa using this.symm
  have e1 : add64 o 1 = o + 1 := Nat.mod_eq_of_lt (by omega)
  have e2 : add64 o 2 = o + 2 := Nat.mod_eq_of_lt (by omega)
  have e3 : add64 o 3 = o + 3 := Nat.mod_eq_of_lt (by omega)
  simp only [getCryptedBytesWith, e1, e2, e3, charAt_eq s _ _ h0, charAt_eq s _ _ h1,
    charAt_eq s _ _ h2, charAt_eq s _ _ h3, Option.bind_eq_bind, Option.some_bind,
    Option.pure_def]

theorem mem_take_of_drop (s l : List Char) (o j N : Nat) (x : Char) (h : s.drop o = l)
    (hx : l[j]? = some x) (hN : o + j < N) : x ∈ s.take N := by
  have e : s[o + j]? = some x := by
    rw [← List.getElem?_drop, h, hx]
  have e2 : (s.take N)[o + j]? = some x := by
    rw [List.getElem?_take_of_lt hN, e]
  exact List.getElem?_mem e2

/-- A lookup that agrees with `indexOfChar` on the symbols the loop reads
gives the same loop. -/
theorem decryptLoopWith_congr (lookup : Char → Nat) (s : List Char) (hs : s.length < SIZE)
    (N : Nat) (hN : ∀ c ∈ s.take N, lookup c = indexOfChar c) :
    ∀ (k i : Nat) (st : State), 4 * (i + k) ≤ s.length → 4 * (i + k) ≤ N →
      decryptLoopWith lookup s k i st = decryptLoop s k i st := by
  intro k
  induction k with
  | zero => intro i st _ _; rfl
  | succ k ih =>
    intro i st h1 h2
    obtain ⟨a, b, c, d, hd⟩ := drop_four s (4 * i) (by omega)
    have hm : mul64 i 4 = 4 * i := by
      unfold mul64; rw [Nat.mod_eq_of_lt (by omega)]; omega
    have ha := hN a (mem_take_of_drop s _ (4 * i) 0 N a hd (by simp) (by omega))
    have hb := hN b (mem_take_of_drop s _ (4 * i) 1 N b hd (by simp) (by omega))
    have hc := hN c (mem_take_of_drop s _ (4 * i) 2 N c hd (by simp) (by omega))
    have hd' := hN d (mem_take_of_drop s _ (4 * i) 3 N d hd (by simp) (by omega))
    simp only [decryptLoopWith, decryptLoop, hm, Option.bind_eq_bind,
      getCryptedBytesWith_of_drop lookup s _ a b c d _ hd (by omega),
      getCryptedBytes_of_drop s _ a b c d _ hd (by omega), Option.some_bind, ha, hb, hc, hd']
    exact ih (i + 1) _ (by omega) (by omega)

/-- On a valid ciphertext the output of `decrypt` is the same for every lookup
that agrees with `indexOfChar` outside the pad marker. -/
theorem decryptWith_valid (lookup : Char → Nat) (s : List Char) (n k : Nat) (cout : List Nat)
    (hv : ValidCiphertext s n k) (hs : s.length < SIZE)
    (hlookup : ∀ c, c ≠ '=' → lookup c = indexOfChar c) :
    decryptWith lookup s cout = decrypt s cout := by
  obtain ⟨hn, hlen, hk, htake, _⟩ := id hv
  have hN : ∀ c ∈ s.take (s.length - k), lookup c = indexOfChar c := by
    intro c hc
    exact hlookup c (fun e => pad_not_mem_base64 (e ▸ htake c hc))
  have hnum : sub64 (s.length / 4) 1 = n - 1 := by
    unfold sub64 SIZE; unfold SIZE at hs; omega
  have hm : mul64 (n - 1) 4 = 4 * (n - 1) := by
    unfold mul64 SIZE; unfold SIZE at hs; omega
  have hpc : (s.drop (4 * (n - 1) + 2)).countP (fun caractere => caractere == '=') = k := by
    have hp := padCount_valid s n k hv
    unfold padCount at hp
    have e : 4 * (s.length / 4 - 1) + 2 = 4 * (n - 1) + 2 := by omega
    rw [e] at hp
    exact hp
  obtain ⟨a, b, c, d, hd⟩ := drop_four s (4 * (n - 1)) (by omega)
  have ha := hN a (mem_take_of_drop s _ (4 * (n - 1)) 0 _ a hd (by simp) (by omega))
  have hb := hN b (mem_take_of_drop s _ (4 * (n - 1)) 1 _ b hd (by simp) (by omega))
  have hloop := decryptLoopWith_congr lookup s hs (s.length - k) hN (n - 1) 0
    { cout := cout, transposition := 79 } (by omega) (by omega)
  have hlast : ∀ st, lastBlock k (lookup a) (lookup b) (lookup c) (lookup d) st =
      lastBlock k (indexOfChar a) (indexOfChar b) (indexOfChar c) (indexOfChar d) st := by
    intro st
    have hk3 : k = 0 ∨ k = 1 ∨ k = 2 := by omega
    rcases hk3 with rfl | rfl | rfl
    · have hc := hN c (mem_take_of_drop s _ (4 * (n - 1)) 2 _ c hd (by simp) (by omega))
      have hd' := hN d (mem_take_of_drop s _ (4 * (n - 1)) 3 _ d hd (by simp) (by omega))
      rw [ha, hb, hc, hd']
    · have hc := hN c (mem_take_of_drop s _ (4 * (n - 1)) 2 _ c hd (by simp) (by omega))
      rw [ha, hb, hc]
      exact decryptBlock3_ignores (indexOfChar a) (indexOfChar b) (indexOfChar c)
        (indexOfChar d) (lookup d) st
    · rw [ha, hb]
      exact decryptBlock2_ignores (indexOfChar a) (indexOfChar b) (indexOfChar c)
        (indexOfChar d) (lookup c) (lookup d) st
  have hle : 4 * (n - 1) + 2 ≤ s.length := by omega
  simp only [decryptWith, decrypt, hnum, hm, hle, if_true, hloop, hpc, Option.bind_eq_bind,
    Option.pure_def, getCryptedBytesWith_of_drop lookup s _ a b c d _ hd (by omega),
    getCryptedBytes_of_drop s _ a b c d _ hd (by omega)]
  cases decryptLoop s (n - 1) 0 { cout := cout, transposition := 79 } with
  | none => simp only [Option.none_bind]
  | some st1 => simp only [Option.some_bind, hlast]

/-! ## The state after the loop -/

/-- The state the loop leaves: three bytes and three counter steps for every
iteration. -/
theorem decryptLoop_state (s : List Char) : ∀ (k i : Nat) (out : List Nat) (t : Nat)
    (st1 : State), decryptLoop s k i { cout := out, transposition := t } = some st1 →
    t + 3 * k < SIZE →
    ∃ bs, st1 = { cout := out ++ bs, transposition := t + 3 * k } ∧ bs.length = 3 * k := by
  intro k
  induction k with
  | zero =>
    intro i out t st1 h _
    simp only [decryptLoop, Option.some.injEq] at h
    subst h
    exact ⟨[], by simp, rfl⟩
  | succ k ih =>
    intro i out t st1 h ht
    simp only [decryptLoop, Option.bind_eq_bind] at h
    cases hg : getCryptedBytes s (mul64 i 4) with
    | none => rw [hg] at h; exact Option.noConfusion h
    | some q =>
      obtain ⟨c1, c2, c3, c4⟩ := q
      rw [hg] at h
      simp only [Option.some_bind, decryptBlock4_eq _ _ _ _ _ _ (by omega : t + 3 < SIZE)] at h
      obtain ⟨bs, e1, e2⟩ := ih _ _ _ _ h (by omega)
      refine ⟨[unmask (shl64 c1 2 ||| c2 >>> 4) t,
        unmask (shl64 (c2 &&& 0xF) 4 ||| c3 >>> 2) (t + 1),
        unmask (shl64 (c3 &&& 0x3) 6 ||| c4) (t + 2)] ++ bs, ?_, ?_⟩
      · rw [e1, List.append_assoc]
        congr 1
        omega
      · simp only [List.length_append, List.length_cons, List.length_nil, e2]
        omega

/-! ## The claims -/

/-- C1: on a valid ciphertext `decrypt` returns, and the byte it emits at
position `j` (before the line terminator) is `(r_j - (79 + j)) mod 128`, where
`r_j` is byte `j` of the plain base64 unpacking of the ciphertext; it emits
exactly as many bytes as the unpacking has. -/
theorem decrypt_valid_bytes (s : List Char) (n k : Nat) (cout : List Nat)
    (hv : ValidCiphertext s n k) (hs : s.length < 2 ^ 64) :
    ∃ out, decrypt s cout = some (cout ++ out ++ [10]) ∧
      ∀ j, out[j]? = ((base64Unpack s)[j]?).map (fun r => unmask r (79 + j)) := by
  have h4 : 4 ≤ s.length := by
    obtain ⟨h1, h2, _⟩ := hv; omega
  have hn : 79 + 3 * n < SIZE := by
    obtain ⟨h1, h2, _⟩ := hv; unfold SIZE; omega
  refine ⟨unmaskFrom 79 (base64Unpack s), ?_, unmaskFrom_getElem? _ 79⟩
  rw [decrypt_eq s cout h4 hs, decryptList_valid s n k cout 79 hv hn]

theorem decrypt_valid_bytes_witness :
    ValidCiphertext "ebw=".toList 1 1 ∧ "ebw=".toList.length < 2 ^ 64 ∧
    ∃ out, decrypt "ebw=".toList [7] = some ([7] ++ out ++ [10]) ∧
      ∀ j, out[j]? = ((base64Unpack "ebw=".toList)[j]?).map (fun r => unmask r (79 + j)) :=
  ⟨by decide, by decide, decrypt_valid_bytes "ebw=".toList 1 1 [7] (by decide) (by decide)⟩

/-- C2: round trip. For every non-empty plaintext `P` of bytes in [0, 127]
(short enough for its ciphertext to be a string), `decrypt` applied to
`encrypt P` returns and emits exactly the bytes of `P`. -/
theorem decrypt_encrypt (P : List Nat) (cout : List Nat) (hne : P ≠ [])
    (hP : ∀ p ∈ P, p < 128) (hs : (encrypt P).length < 2 ^ 64) :
    decrypt (encrypt P) cout = some (cout ++ P ++ [10]) := by
  have hlen : (encrypt P).length = 4 * ((P.length + 2) / 3) := by
    unfold encrypt; rw [base64Pack_length, addCounter_length]
  have hpos : 1 ≤ P.length := List.length_pos.mpr hne
  have h4 : 4 ≤ (encrypt P).length := by rw [hlen]; omega
  have ht : 79 + P.length < SIZE := by
    unfold SIZE; rw [hlen] at hs; omega
  rw [decrypt_eq _ cout h4 hs]
  unfold encrypt
  rw [decryptList_pack P cout 79 hne hP ht]

theorem decrypt_encrypt_witness :
    [42, 108, 60, 0, 127] ≠ [] ∧ (∀ p ∈ [42, 108, 60, 0, 127], p < 128) ∧
    (encrypt [42, 108, 60, 0, 127]).length < 2 ^ 64 ∧
    decrypt (encrypt [42, 108, 60, 0, 127]) [] = some ([] ++ [42, 108, 60, 0, 127] ++ [10]) :=
  ⟨by decide, by decide, by decide,
    decrypt_encrypt [42, 108, 60, 0, 127] [] (by decide) (by decide) (by decide)⟩

/-- C3: on a valid ciphertext of `n` groups without pad marker `decrypt`
emits exactly `3 * n` bytes before the line terminator. -/
theorem decrypt_count_no_pad (s : List Char) (n : Nat) (cout : List Nat)
    (hv : ValidCiphertext s n 0) (hs : s.length < 2 ^ 64) :
    ∃ out, decrypt s cout = some (cout ++ out ++ [10]) ∧ out.length = 3 * n := by
  obtain ⟨h1, h2, _⟩ := id hv
  obtain ⟨bs, e1, _, e3⟩ :=
    decryptList_cout s { cout := cout, transposition := 79 } (by omega)
  refine ⟨bs, ?_, ?_⟩
  · rw [decrypt_eq s cout (by omega) hs, e1]
  · rw [e3, padCount_valid s n 0 hv, h2]; omega

theorem decrypt_count_no_pad_witness :
    ValidCiphertext "ebwNebwN".toList 2 0 ∧ "ebwNebwN".toList.length < 2 ^ 64 ∧
    ∃ out, decrypt "ebwNebwN".toList [] = some ([] ++ out ++ [10]) ∧ out.length = 3 * 2 :=
  ⟨by decide, by decide, decrypt_count_no_pad "ebwNebwN".toList 2 [] (by decide) (by decide)⟩

/-- C4: on a valid ciphertext of `n` groups `decrypt` emits exactly
`3 * (n - 1) + 2` bytes when it ends in exactly one pad marker and exactly
`3 * (n - 1) + 1` bytes when it ends in exactly two. -/
theorem decrypt_count_padded (s : List Char) (n : Nat) (cout : List Nat)
    (hs : s.length < 2 ^ 64) :
    (ValidCiphertext s n 1 →
      ∃ out, decrypt s cout = some (cout ++ out ++ [10]) ∧ out.length = 3 * (n - 1) + 2) ∧
    (ValidCiphertext s n 2 →
      ∃ out, decrypt s cout = some (cout ++ out ++ [10]) ∧ out.length = 3 * (n - 1) + 1) := by
  constructor
  · intro hv
    obtain ⟨h1, h2, _⟩ := id hv
    obtain ⟨bs, e1, _, e3⟩ :=
      decryptList_cout s { cout := cout, transposition := 79 } (by omega)
    refine ⟨bs, ?_, ?_⟩
    · rw [decrypt_eq s cout (by omega) hs, e1]
    · rw [e3, padCount_valid s n 1 hv, h2]; omega
  · intro hv
    obtain ⟨h1, h2, _⟩ := id hv
    obtain ⟨bs, e1, _, e3⟩ :=
      decryptList_cout s { cout := cout, transposition := 79 } (by omega)
    refine ⟨bs, ?_, ?_⟩
    · rw [decrypt_eq s cout (by omega) hs, e1]
    · rw [e3, padCount_valid s n 2 hv, h2]; omega

theorem decrypt_count_padded_witness :
    ("ebwNebw=".toList.length < 2 ^ 64 ∧ ValidCiphertext "ebwNebw=".toList 2 1 ∧
      ∃ out, decrypt "ebwNebw=".toList [] = some ([] ++ out ++ [10]) ∧
        out.length = 3 * (2 - 1) + 2) ∧
    ("ebwNeb==".toList.length < 2 ^ 64 ∧ ValidCiphertext "ebwNeb==".toList 2 2 ∧
      ∃ out, decrypt "ebwNeb==".toList [] = some ([] ++ out ++ [10]) ∧
        out.length = 3 * (2 - 1) + 1) :=
  ⟨⟨by decide, by decide,
      (decrypt_count_padded "ebwNebw=".toList 2 [] (by decide)).1 (by decide)⟩,
    ⟨by decide, by decide,
      (decrypt_count_padded "ebwNeb==".toList 2 [] (by decide)).2 (by decide)⟩⟩

/-- C5: every byte `decrypt` emits lies in [0, 127], whatever the input
string, and so does every byte a `decryptBlock` specialisation emits, whatever
its arguments and the counter. -/
theorem emitted_bytes_in_range (s : List Char) (cout result : List Nat)
    (c1 c2 c3 c4 : Nat) (st : State) (h : decrypt s cout = some result) :
    (∃ out, result = cout ++ out ++ [10] ∧ ∀ b ∈ out, b < 128) ∧
    (∃ b1, (decryptBlock2 c1 c2 c3 c4 st).cout = st.cout ++ [b1] ∧ b1 < 128) ∧
    (∃ b1 b2, (decryptBlock3 c1 c2 c3 c4 st).cout = st.cout ++ [b1, b2] ∧
      b1 < 128 ∧ b2 < 128) ∧
    (∃ b1 b2 b3, (decryptBlock4 c1 c2 c3 c4 st).cout = st.cout ++ [b1, b2, b3] ∧
      b1 < 128 ∧ b2 < 128 ∧ b3 < 128) := by
  refine ⟨?_, decryptBlock2_cout c1 c2 c3 c4 st, decryptBlock3_cout c1 c2 c3 c4 st,
    decryptBlock4_cout c1 c2 c3 c4 st⟩
  unfold decrypt at h
  simp only [Option.bind_eq_bind, Option.pure_def] at h
  split at h
  · cases hl : decryptLoop s (sub64 (s.length / 4) 1) 0 { cout := cout, transposition := 79 } with
    | none => rw [hl] at h; exact Option.noConfusion h
    | some st1 =>
      rw [hl] at h
      simp only [Option.some_bind] at h
      cases hg : getCryptedBytes s (mul64 (sub64 (s.length / 4) 1) 4) with
      | none => rw [hg] at h; exact Option.noConfusion h
      | some q =>
        obtain ⟨q1, q2, q3, q4⟩ := q
        rw [hg] at h
        simp only [Option.some_bind, Option.some.injEq] at h
        obtain ⟨bs, e1, e2⟩ := decryptLoop_cout s _ _ _ _ hl
        obtain ⟨bs2, f1, f2, _⟩ := lastBlock_cout
          ((s.drop (mul64 (sub64 (s.length / 4) 1) 4 + 2)).countP
            (fun caractere => caractere == '=')) q1 q2 q3 q4 st1
        refine ⟨bs ++ bs2, ?_, ?_⟩
        · rw [← h, f1, e1]
          simp only [List.append_assoc]
        · intro x hx
          rcases List.mem_append.mp hx with hx | hx
          · exact e2 x hx
          · exact f2 x hx
  · exact Option.noConfusion h

theorem emitted_bytes_in_range_witness :
    decrypt "!bwN=".toList [] = some [46, 108, 10] ∧
    (∃ out, [46, 108, 10] = [] ++ out ++ [10] ∧ ∀ b ∈ out, b < 128) ∧
    (∃ b1, (decryptBlock2 npos 7 0 0 { cout := [], transposition := 200 }).cout =
      [] ++ [b1] ∧ b1 < 128) :=
  have h := emitted_bytes_in_range "!bwN=".toList [] [46, 108, 10] npos 7 0 0
    { cout := [], transposition := 200 } (by decide)
  ⟨by decide, h.1, h.2.1⟩

/-- C6: function `decrypt` applied to `"ebwN"`, whose symbols have the alphabet
indices 30, 27, 48, 13, emits exactly the bytes 42, 108, 60 in that order. -/
theorem decrypt_ebwN :
    indexOfChar 'e' = 30 ∧ indexOfChar 'b' = 27 ∧ indexOfChar 'w' = 48 ∧
    indexOfChar 'N' = 13 ∧
    ∀ cout, decrypt "ebwN".toList cout = some (cout ++ [42, 108, 60] ++ [10]) := by
  refine ⟨by decide, by decide, by decide, by decide, ?_⟩
  intro cout
  have hv : ValidCiphertext "ebwN".toList 1 0 := by decide
  rw [decrypt_eq _ cout (by decide) (by decide),
    decryptList_valid _ 1 0 cout 79 hv (by decide)]
  have e : unmaskFrom 79 (base64Unpack "ebwN".toList) = [42, 108, 60] := by decide
  rw [e]

/-- C7, as the code has it: `decrypt` checks no length and has no
`InvalidLength` failure. On every ciphertext of at least four symbols, whether
or not its length is a multiple of 4, it returns and emits three bytes for
every complete group but the last and `3 - k` bytes (none when `k > 2`) for the
last complete group, `k` being the number of `=` from the third symbol of that
group to the end of the string. -/
theorem decrypt_any_length (s : List Char) (cout : List Nat) (h4 : 4 ≤ s.length)
    (hs : s.length < 2 ^ 64) :
    ∃ out, decrypt s cout = some (cout ++ out ++ [10]) ∧
      out.length = 3 * (s.length / 4 - 1) + (3 - padCount s) := by
  obtain ⟨bs, e1, _, e3⟩ := decryptList_cout s { cout := cout, transposition := 79 } h4
  exact ⟨bs, by rw [decrypt_eq s cout h4 hs, e1], e3⟩

theorem decrypt_any_length_witness :
    4 ≤ "ebwN=".toList.length ∧ "ebwN=".toList.length < 2 ^ 64 ∧
    ∃ out, decrypt "ebwN=".toList [] = some ([] ++ out ++ [10]) ∧
      out.length = 3 * ("ebwN=".toList.length / 4 - 1) + (3 - padCount "ebwN=".toList) :=
  ⟨by decide, by decide, decrypt_any_length "ebwN=".toList [] (by decide) (by decide)⟩

/-- C7 fails as stated: on the five-symbol ciphertext `"ebwNA"` function
`decrypt` returns normally and emits the three bytes 42, 108, 60. -/
theorem decrypt_length_five_counterexample :
    "ebwNA".toList.length = 5 ∧
    decrypt "ebwNA".toList [] = some ([42, 108, 60] ++ [10]) := by
  decide

/-- C8, as the code has it: the alphabet lookup has no `InvalidSymbol` failure,
it returns the sentinel `npos = 2 ^ 64 - 1` for every character outside the
alphabet; and `decrypt` on a ciphertext of at least four symbols containing
such a character returns normally, with as many bytes as its length and pad
count give. -/
theorem lookup_outside_alphabet (s : List Char) (cout : List Nat) (c : Char)
    (hc : c ∉ base64) (_hmem : c ∈ s) (h4 : 4 ≤ s.length) (hs : s.length < 2 ^ 64) :
    indexOfChar c = 2 ^ 64 - 1 ∧
    ∃ out, decrypt s cout = some (cout ++ out ++ [10]) ∧
      out.length = 3 * (s.length / 4 - 1) + (3 - padCount s) := by
  obtain ⟨bs, e1, _, e3⟩ := decryptList_cout s { cout := cout, transposition := 79 } h4
  exact ⟨indexOfChar_of_not_mem c hc, bs, by rw [decrypt_eq s cout h4 hs, e1], e3⟩

theorem lookup_outside_alphabet_witness :
    '!' ∉ base64 ∧ '!' ∈ "eb!N".toList ∧ 4 ≤ "eb!N".toList.length ∧
    "eb!N".toList.length < 2 ^ 64 ∧ indexOfChar '!' = 2 ^ 64 - 1 ∧
    ∃ out, decrypt "eb!N".toList [] = some ([] ++ out ++ [10]) ∧
      out.length = 3 * ("eb!N".toList.length / 4 - 1) + (3 - padCount "eb!N".toList) :=
  ⟨by decide, by decide, by decide, by decide,
    lookup_outside_alphabet "eb!N".toList [] '!' (by decide) (by decide) (by decide)
      (by decide)⟩

/-- C8 fails as stated: the lookup of `'!'`, which is not in the alphabet,
returns `2 ^ 64 - 1` instead of failing, and `decrypt` on `"!bwN"`, where `'!'`
is in a non-pad position, returns normally and emits three bytes. -/
theorem invalid_symbol_counterexample :
    '!' ∉ base64 ∧ indexOfChar '!' = 2 ^ 64 - 1 ∧
    decrypt "!bwN".toList [] = some ([46, 108, 60] ++ [10]) := by
  decide

/-- C9: the alphabet is a bijection between its symbols and the indices 0..63.
The table has exactly 64 pairwise distinct symbols, `indexOfChar` of the symbol
at index `i` is `i`, and for every symbol `c` of the table `indexOfChar c` is
below 64 and the table holds `c` at that index. -/
theorem alphabet_bijection :
    base64.length = 64 ∧ base64.Nodup ∧
    (∀ i : Fin 64, (base64[i.val]?).map indexOfChar = some i.val) ∧
    (∀ c ∈ base64, indexOfChar c < 64 ∧ base64[indexOfChar c]? = some c) := by
  refine ⟨by decide, by decide, by decide, by decide⟩

/-- C10: started with counter `t`, `t + 3 < 2 ^ 64`, the three-byte variant
appends exactly the bytes `(((i1<<2)|(i2>>4)) - t) & 0x7F`,
`((((i2&0xF)<<4)|(i3>>2)) - (t+1)) & 0x7F`, `((((i3&0x3)<<6)|i4) - (t+2)) & 0x7F`
in that order and leaves the counter at `t + 3`; the two-byte variant appends
the first two and leaves `t + 2`; the one-byte variant appends the first and
leaves `t + 1`. -/
theorem decryptBlock_postcondition (i1 i2 i3 i4 t : Nat) (out : List Nat)
    (ht : t + 3 < 2 ^ 64) :
    decryptBlock4 i1 i2 i3 i4 { cout := out, transposition := t } =
      { cout := out ++ [sub64 (shl64 i1 2 ||| i2 >>> 4) t &&& 0x7F,
          sub64 (shl64 (i2 &&& 0xF) 4 ||| i3 >>> 2) (t + 1) &&& 0x7F,
          sub64 (shl64 (i3 &&& 0x3) 6 ||| i4) (t + 2) &&& 0x7F],
        transposition := t + 3 } ∧
    decryptBlock3 i1 i2 i3 i4 { cout := out, transposition := t } =
      { cout := out ++ [sub64 (shl64 i1 2 ||| i2 >>> 4) t &&& 0x7F,
          sub64 (shl64 (i2 &&& 0xF) 4 ||| i3 >>> 2) (t + 1) &&& 0x7F],
        transposition := t + 2 } ∧
    decryptBlock2 i1 i2 i3 i4 { cout := out, transposition := t } =
      { cout := out ++ [sub64 (shl64 i1 2 ||| i2 >>> 4) t &&& 0x7F],
        transposition := t + 1 } := by
  have h3 : t + 3 < SIZE := ht
  refine ⟨?_, ?_, ?_⟩
  · rw [decryptBlock4_eq _ _ _ _ _ _ h3]; simp only [sub64_and_0x7F]
  · rw [decryptBlock3_eq _ _ _ _ _ _ (by omega)]; simp only [sub64_and_0x7F]
  · rw [decryptBlock2_eq _ _ _ _ _ _ (by omega)]; simp only [sub64_and_0x7F]

theorem decryptBlock_postcondition_witness :
    79 + 3 < 2 ^ 64 ∧
    decryptBlock4 30 27 48 13 { cout := [], transposition := 79 } =
      { cout := [] ++ [sub64 (shl64 30 2 ||| 27 >>> 4) 79 &&& 0x7F,
          sub64 (shl64 (27 &&& 0xF) 4 ||| 48 >>> 2) (79 + 1) &&& 0x7F,
          sub64 (shl64 (48 &&& 0x3) 6 ||| 13) (79 + 2) &&& 0x7F],
        transposition := 79 + 3 } :=
  ⟨by decide, (decryptBlock_postcondition 30 27 48 13 79 [] (by decide)).1⟩

/-- C11: the byte `(r - t) & 0x7F`, computed with wrap-around on `size_t`, is
the residue of the integer `r - t` modulo 128, a number of [0, 127], for all
`r` and `t`, also when `t > r`; with `r = 13` and `t = 81` it is 60; and the
byte `decryptBlock<2>` writes is that residue for its reconstructed value. -/
theorem wrapping_subtraction_residue (r t i1 i2 i3 i4 : Nat) (st : State) :
    ((sub64 r t &&& 0x7F : Nat) : Int) = ((r : Int) - (t : Int)) % 128 ∧
    sub64 r t &&& 0x7F < 128 ∧
    sub64 13 81 &&& 0x7F = 60 ∧
    (decryptBlock2 i1 i2 i3 i4 st).cout = st.cout ++
      [((((shl64 i1 2 ||| i2 >>> 4 : Nat) : Int) - (st.transposition : Int)) % 128).toNat] := by
  refine ⟨?_, ?_, by decide, ?_⟩
  · rw [and_0x7F]; unfold sub64 SIZE; omega
  · rw [and_0x7F]; omega
  · rw [decryptBlock2_emit, emit_cout]; rfl

/-- C12: message independence. With the output stream an explicit list of
bytes, running `decrypt a` and then `decrypt b` appends the bytes `a` gives when
run alone, a line terminator, the bytes `b` gives when run alone, and a line
terminator; whatever is in the stream before `decrypt b` (what `a` wrote
included), the call appends the same bytes. -/
theorem message_independence (a b : List Char) (cout outA outB : List Nat)
    (ha : decrypt a [] = some (outA ++ [10])) (hb : decrypt b [] = some (outB ++ [10])) :
    (decrypt a cout).bind (decrypt b) = some (cout ++ outA ++ [10] ++ outB ++ [10]) ∧
    (∀ pre, decrypt b pre = some (pre ++ outB ++ [10])) := by
  have hpre : ∀ (s : List Char) (out pre : List Nat), decrypt s [] = some (out ++ [10]) →
      decrypt s pre = some (pre ++ out ++ [10]) := by
    intro s out pre h
    have := decrypt_prepend s pre []
    rw [List.append_nil, h] at this
    rw [this]
    simp only [Option.map_some', List.append_assoc]
  refine ⟨?_, fun pre => hpre b outB pre hb⟩
  rw [hpre a outA cout ha, Option.some_bind, hpre b outB _ hb]

theorem message_independence_witness :
    decrypt "ebw=".toList [] = some ([42, 108] ++ [10]) ∧
    decrypt "ebwN".toList [] = some ([42, 108, 60] ++ [10]) ∧
    (decrypt "ebw=".toList [1, 2]).bind (decrypt "ebwN".toList)
      = some ([1, 2] ++ [42, 108] ++ [10] ++ [42, 108, 60] ++ [10]) :=
  ⟨by decide, by decide,
    (message_independence "ebw=".toList "ebwN".toList [1, 2] [42, 108] [42, 108, 60]
      (by decide) (by decide)).1⟩

/-- C13, as the code has it: on a ciphertext of `4 * n` symbols, `n ≥ 1`, that
ends with more than two pad markers, `decrypt` raises no error. The count it
computes is 2, the markers of the last two positions. The loop runs the
three-byte variant on the `n - 1` groups before the last and leaves `3 * (n - 1)`
bytes and the counter `79 + 3 * (n - 1)`; the one-byte variant then runs on the
final group, whose symbols after the first are `=`, and writes the single byte
`(((i1 << 2) | (npos >> 4)) - (79 + 3 * (n - 1))) & 0x7F`, `i1` being the index of
the group's first symbol: `3 * (n - 1) + 1` bytes in all. -/
theorem malformed_tail (s : List Char) (n : Nat) (cout : List Nat)
    (hlen : s.length = 4 * n) (hn : 1 ≤ n) (hs : s.length < 2 ^ 64)
    (htail : ∀ c ∈ s.drop (s.length - 3), c = '=') :
    (s.drop (mul64 (sub64 (s.length / 4) 1) 4 + 2)).countP (fun caractere => caractere == '=')
      = 2 ∧
    indexOfChar '=' = 2 ^ 64 - 1 ∧
    ∃ (a : Char) (st1 : State) (pre : List Nat),
      s[s.length - 4]? = some a ∧
      decryptLoop s (n - 1) 0 { cout := cout, transposition := 79 } = some st1 ∧
      st1 = { cout := cout ++ pre, transposition := 79 + 3 * (n - 1) } ∧
      pre.length = 3 * (n - 1) ∧
      decrypt s cout = some ((decryptBlock2 (indexOfChar a) (indexOfChar '=')
        (indexOfChar '=') (indexOfChar '=') st1).cout ++ [10]) ∧
      ∃ out, decrypt s cout = some (cout ++ out ++ [10]) ∧
        out = pre ++ [sub64 (shl64 (indexOfChar a) 2 ||| (2 ^ 64 - 1) >>> 4)
          (79 + 3 * (n - 1)) &&& 0x7F] ∧
        out.length = 3 * (n - 1) + 1 := by
  have h4 : 4 ≤ s.length := by omega
  have hsz : s.length < SIZE := hs
  have hk : padCount s = 2 := by
    rw [padCount_last_two s n hlen hn]
    have hall : ∀ c ∈ s.drop (s.length - 2), (c == '=') = true := by
      intro c hc
      have e : s.drop (s.length - 2) = (s.drop (s.length - 3)).drop 1 := by
        rw [List.drop_drop]; congr 1; omega
      rw [e] at hc
      simp [htail c (List.mem_of_mem_drop hc)]
    rw [List.countP_eq_length.mpr hall, List.length_drop]
    omega
  have hcount := padCount_eq_source s h4 hsz
  rw [hk] at hcount
  have hpad : indexOfChar '=' = 2 ^ 64 - 1 := by decide
  obtain ⟨a, b, c, d, hd⟩ := drop_four s (4 * (n - 1)) (by omega)
  have hd3 : s.drop (s.length - 3) = b :: c :: d :: s.drop (4 * (n - 1) + 4) := by
    have e : s.drop (s.length - 3) = (s.drop (4 * (n - 1))).drop 1 := by
      rw [List.drop_drop]; congr 1; omega
    rw [e, hd]; rfl
  have hb : b = '=' := htail b (by rw [hd3]; simp)
  have hc : c = '=' := htail c (by rw [hd3]; simp)
  have hd' : d = '=' := htail d (by rw [hd3]; simp)
  subst hb hc hd'
  have ha : s[s.length - 4]? = some a := by
    have e := List.getElem?_drop s (4 * (n - 1)) 0
    rw [hd] at e
    have e2 : 4 * (n - 1) + 0 = s.length - 4 := by omega
    rw [e2] at e
    simpa using e.symm
  obtain ⟨st1, _, _, _, _, e1, _, _⟩ :=
    loop_then_last s hsz (n - 1) 0 { cout := cout, transposition := 79 } (by omega) (by omega)
  have hget := getCryptedBytes_of_drop s _ a '=' '=' '=' _ hd
    (by unfold SIZE at hsz ⊢; omega)
  have ht : 79 + 3 * (n - 1) + 1 < SIZE := by unfold SIZE at hsz ⊢; omega
  obtain ⟨pre, hst, hpre⟩ := decryptLoop_state s (n - 1) 0 cout 79 st1 e1 (by omega)
  have hnum : sub64 (s.length / 4) 1 = n - 1 := by
    unfold sub64 SIZE; unfold SIZE at hsz; omega
  have hm : mul64 (n - 1) 4 = 4 * (n - 1) := by
    unfold mul64 SIZE; unfold SIZE at hsz; omega
  have hle : 4 * (n - 1) + 2 ≤ s.length := by omega
  rw [hnum, hm] at hcount
  have hdec : decrypt s cout = some ((decryptBlock2 (indexOfChar a) (indexOfChar '=')
      (indexOfChar '=') (indexOfChar '=') st1).cout ++ [10]) := by
    simp only [decrypt, hnum, hm, hle, if_true, e1, hget, hcount, Option.bind_eq_bind,
      Option.some_bind, Option.pure_def, lastBlock]
  refine ⟨by rw [hnum, hm]; exact hcount, hpad, a, st1, pre, ha, e1, hst, hpre, hdec, ?_⟩
  refine ⟨_, ?_, rfl, by simp only [List.length_append, List.length_cons, List.length_nil, hpre]⟩
  rw [hdec, hst, decryptBlock2_eq _ _ _ _ _ _ ht, ← sub64_and_0x7F, hpad]
  simp only [List.append_assoc]

theorem malformed_tail_witness :
    "ebwNA===".toList.length = 4 * 2 ∧ 1 ≤ 2 ∧ "ebwNA===".toList.length < 2 ^ 64 ∧
    (∀ c ∈ "ebwNA===".toList.drop ("ebwNA===".toList.length - 3), c = '=') ∧
    ∃ (a : Char) (st1 : State) (pre : List Nat),
      "ebwNA===".toList["ebwNA===".toList.length - 4]? = some a ∧
      decryptLoop "ebwNA===".toList (2 - 1) 0 { cout := [], transposition := 79 } = some st1 ∧
      st1 = { cout := [] ++ pre, transposition := 79 + 3 * (2 - 1) } ∧
      pre.length = 3 * (2 - 1) ∧
      decrypt "ebwNA===".toList [] = some ((decryptBlock2 (indexOfChar a) (indexOfChar '=')
        (indexOfChar '=') (indexOfChar '=') st1).cout ++ [10]) ∧
      ∃ out, decrypt "ebwNA===".toList [] = some ([] ++ out ++ [10]) ∧
        out = pre ++ [sub64 (shl64 (indexOfChar a) 2 ||| (2 ^ 64 - 1) >>> 4)
          (79 + 3 * (2 - 1)) &&& 0x7F] ∧
        out.length = 3 * (2 - 1) + 1 :=
  ⟨by decide, by decide, by decide, by decide,
    (malformed_tail "ebwNA===".toList 2 [] (by decide) (by decide) (by decide)
      (by decide)).2.2⟩

/-- C13 fails as stated: `"A==="` has four symbols and ends with three pad
markers, and `decrypt` emits one byte for its final group, not none. -/
theorem malformed_tail_counterexample :
    "A===".toList.length = 4 * 1 ∧
    "A===".toList.drop 1 = ['=', '=', '='] ∧
    decrypt "A===".toList [] = some ([48] ++ [10]) := by
  decide

/-- C14: on the same arguments and starting state, the bytes the one-byte
variant appends are a proper prefix of those the two-byte variant appends,
which are a proper prefix of those the three-byte variant appends. -/
theorem variants_extend_each_other (i1 i2 i3 i4 : Nat) (st : State) :
    ∃ e2 e3 e4 : List Nat,
      (decryptBlock2 i1 i2 i3 i4 st).cout = st.cout ++ e2 ∧
      (decryptBlock3 i1 i2 i3 i4 st).cout = st.cout ++ e3 ∧
      (decryptBlock4 i1 i2 i3 i4 st).cout = st.cout ++ e4 ∧
      e2 <+: e3 ∧ e2.length < e3.length ∧ e3 <+: e4 ∧ e3.length < e4.length := by
  refine ⟨[unmask (shl64 i1 2 ||| i2 >>> 4) st.transposition],
    [unmask (shl64 i1 2 ||| i2 >>> 4) st.transposition,
      unmask (shl64 (i2 &&& 0xF) 4 ||| i3 >>> 2) (add64 st.transposition 1)],
    [unmask (shl64 i1 2 ||| i2 >>> 4) st.transposition,
      unmask (shl64 (i2 &&& 0xF) 4 ||| i3 >>> 2) (add64 st.transposition 1),
      unmask (shl64 (i3 &&& 0x3) 6 ||| i4) (add64 (add64 st.transposition 1) 1)],
    ?_, ?_, ?_, ⟨[_], rfl⟩, by simp, ⟨[_], rfl⟩, by simp⟩
  · simp only [decryptBlock2_emit, emit_cout]
  · simp only [decryptBlock3_emit, decryptBlock2_emit, emit_cout, List.append_assoc]
    rfl
  · simp only [decryptBlock4_emit, decryptBlock3_emit, decryptBlock2_emit, emit_cout,
      List.append_assoc]
    rfl

/-- C15: unused inputs are ignored. The one-byte variant gives the same state
for every `i3` and `i4`, and the two-byte variant for every `i4`, the value
`2 ^ 64 - 1` that the lookup returns for `=` included. Hence on a valid
ciphertext, padded or not, the output of `decrypt` is the same whatever the
lookup returns for `=`: any lookup that agrees with `indexOfChar` on the other
characters gives the output of `decrypt`. -/
theorem unused_inputs_ignored (i1 i2 i3 i4 j3 j4 : Nat) (st : State)
    (lookup : Char → Nat) (s : List Char) (n k : Nat) (cout : List Nat)
    (hv : ValidCiphertext s n k) (hs : s.length < 2 ^ 64)
    (hlookup : ∀ c, c ≠ '=' → lookup c = indexOfChar c) :
    decryptBlock2 i1 i2 j3 j4 st = decryptBlock2 i1 i2 i3 i4 st ∧
    decryptBlock3 i1 i2 i3 j4 st = decryptBlock3 i1 i2 i3 i4 st ∧
    indexOfChar '=' = 2 ^ 64 - 1 ∧
    decryptWith indexOfChar s cout = decrypt s cout ∧
    decryptWith lookup s cout = decrypt s cout :=
  ⟨decryptBlock2_ignores i1 i2 i3 i4 j3 j4 st, decryptBlock3_ignores i1 i2 i3 i4 j4 st,
    by decide, decryptWith_indexOfChar s cout,
    decryptWith_valid lookup s n k cout hv hs hlookup⟩

theorem unused_inputs_ignored_witness :
    ValidCiphertext "ebwNeb==".toList 2 2 ∧ "ebwNeb==".toList.length < 2 ^ 64 ∧
    (∀ c, c ≠ '=' → (fun x => if x = '=' then 5 else indexOfChar x) c = indexOfChar c) ∧
    decryptBlock2 30 27 5 5 { cout := [], transposition := 79 } =
      decryptBlock2 30 27 (2 ^ 64 - 1) (2 ^ 64 - 1) { cout := [], transposition := 79 } ∧
    decryptWith (fun x => if x = '=' then 5 else indexOfChar x) "ebwNeb==".toList [] =
      decrypt "ebwNeb==".toList [] :=
  have hl : ∀ c, c ≠ '=' → (fun x => if x = '=' then 5 else indexOfChar x) c = indexOfChar c :=
    fun c hc => by simp [hc]
  have h := unused_inputs_ignored 30 27 (2 ^ 64 - 1) (2 ^ 64 - 1) 5 5
    { cout := [], transposition := 79 } (fun x => if x = '=' then 5 else indexOfChar x)
    "ebwNeb==".toList 2 2 [] (by decide) (by decide) hl
  ⟨by decide, by decide, hl, h.1, h.2.2.2.2⟩

/-- C16: on a ciphertext of fewer than four symbols `numberOfBlocks - 1` wraps
around to `2 ^ 64 - 1`, the iterator `str.begin() + offsetLastBlock + 2` lies
outside the string, and the run is undefined instead of producing an empty
result. -/
theorem decrypt_short (s : List Char) (cout : List Nat) (h : s.length < 4) :
    sub64 (s.length / 4) 1 = 2 ^ 64 - 1 ∧ decrypt s cout = none := by
  have h0 : s.length / 4 = 0 := by omega
  have h1 : sub64 (s.length / 4) 1 = 2 ^ 64 - 1 := by rw [h0]; decide
  have h2 : mul64 (2 ^ 64 - 1) 4 = 2 ^ 64 - 4 := by decide
  refine ⟨h1, ?_⟩
  unfold decrypt
  simp only [h1, h2]
  rw [if_neg (by omega)]

theorem decrypt_short_witness :
    ([] : List Char).length < 4 ∧ sub64 (([] : List Char).length / 4) 1 = 2 ^ 64 - 1 ∧
    decrypt [] [] = none :=
  ⟨by decide, decrypt_short [] [] (by decide)⟩

/-- C17: on a string of `4 * n` symbols, `n ≥ 1`, whatever its characters, the
pad count `decrypt` computes is the number of `=` among the last two symbols,
it is at most 2, so that the `default` branch is not taken, and `decrypt`
emits exactly `3 * n` minus that count bytes; `"AA=A"` emits two bytes. -/
theorem pad_count_of_whole_groups (s : List Char) (n : Nat) (cout : List Nat)
    (hlen : s.length = 4 * n) (hn : 1 ≤ n) (hs : s.length < 2 ^ 64) :
    (s.drop (mul64 (sub64 (s.length / 4) 1) 4 + 2)).countP (fun caractere => caractere == '=')
      = (s.drop (s.length - 2)).countP (fun caractere => caractere == '=') ∧
    (s.drop (s.length - 2)).countP (fun caractere => caractere == '=') ≤ 2 ∧
    (∃ out, decrypt s cout = some (cout ++ out ++ [10]) ∧
      out.length = 3 * n - (s.drop (s.length - 2)).countP (fun caractere => caractere == '=')) ∧
    decrypt "AA=A".toList [] = some ([49, 47] ++ [10]) := by
  have h4 : 4 ≤ s.length := by omega
  have hk := padCount_last_two s n hlen hn
  have hk2 := padCount_le_two s n hlen hn
  refine ⟨?_, ?_, ?_, by decide⟩
  · rw [padCount_eq_source s h4 hs, hk]
  · rw [← hk]; exact hk2
  · obtain ⟨bs, e1, _, e3⟩ := decryptList_cout s { cout := cout, transposition := 79 } h4
    refine ⟨bs, by rw [decrypt_eq s cout h4 hs, e1], ?_⟩
    rw [e3, ← hk, hlen]; omega

theorem pad_count_of_whole_groups_witness :
    "AA=A".toList.length = 4 * 1 ∧ 1 ≤ 1 ∧ "AA=A".toList.length < 2 ^ 64 ∧
    ∃ out, decrypt "AA=A".toList [] = some ([] ++ out ++ [10]) ∧
      out.length = 3 * 1 -
        ("AA=A".toList.drop ("AA=A".toList.length - 2)).countP (fun caractere => caractere == '=') :=
  ⟨by decide, by decide, by decide,
    (pad_count_of_whole_groups "AA=A".toList 1 [] (by decide) (by decide) (by decide)).2.2.1⟩

/-- C18: streaming prefix. For strings `a` and `b` whose lengths are positive
multiples of 4, neither of the last two characters of `a` being `=`, the bytes
`decrypt a` emits are a prefix of the bytes `decrypt (a ++ b)` emits. -/
theorem decrypt_append_extends (a b : List Char) (cout : List Nat)
    (ha : a.length % 4 = 0) (ha0 : 0 < a.length) (hb : b.length % 4 = 0) (hb0 : 0 < b.length)
    (hpad : ∀ c ∈ a.drop (a.length - 2), c ≠ '=') (hs : (a ++ b).length < 2 ^ 64) :
    ∃ outA outAB, decrypt a cout = some (cout ++ outA ++ [10]) ∧
      decrypt (a ++ b) cout = some (cout ++ outAB ++ [10]) ∧ outA <+: outAB := by
  have hlen : (a ++ b).length = a.length + b.length := List.length_append a b
  have ha4 : 4 ≤ a.length := by omega
  have hb4 : 4 ≤ b.length := by omega
  have hsa : a.length < SIZE := by unfold SIZE; omega
  have hp : padCount a = 0 := by
    rw [padCount_last_two a (a.length / 4) (by omega) (by omega), List.countP_eq_zero]
    intro c hc
    simpa using hpad c hc
  obtain ⟨bsA, eA, _, _⟩ := decryptList_cout a { cout := cout, transposition := 79 } ha4
  obtain ⟨bsB, eB, _, _⟩ :=
    decryptList_cout b (decryptList a { cout := cout, transposition := 79 }) hb4
  refine ⟨bsA, bsA ++ bsB, ?_, ?_, ⟨bsB, rfl⟩⟩
  · rw [decrypt_eq a cout ha4 hsa, eA]
  · rw [decrypt_eq (a ++ b) cout (by omega) hs, decryptList_append a ha ha0 hp b _ hb4, eB, eA]
    simp only [List.append_assoc]

theorem decrypt_append_extends_witness :
    "ebwN".toList.length % 4 = 0 ∧ 0 < "ebwN".toList.length ∧
    "eb==".toList.length % 4 = 0 ∧ 0 < "eb==".toList.length ∧
    (∀ c ∈ "ebwN".toList.drop ("ebwN".toList.length - 2), c ≠ '=') ∧
    ("ebwN".toList ++ "eb==".toList).length < 2 ^ 64 ∧
    ∃ outA outAB, decrypt "ebwN".toList [] = some ([] ++ outA ++ [10]) ∧
      decrypt ("ebwN".toList ++ "eb==".toList) [] = some ([] ++ outAB ++ [10]) ∧
      outA <+: outAB :=
  ⟨by decide, by decide, by decide, by decide, by decide, by decide,
    decrypt_append_extends "ebwN".toList "eb==".toList [] (by decide) (by decide) (by decide)
      (by decide) (by decide) (by decide)⟩

/-- C19: the high bit of a reconstructed byte is discarded. For `i1 < 32` every
variant does the same on `(i1 + 32, i2, i3, i4)` as on `(i1, i2, i3, i4)`, so
`decrypt` is not injective on valid ciphertexts: `"+bwN"` and `"ebwN"` are two
valid ciphertexts with the same output. -/
theorem high_bit_discarded (i1 i2 i3 i4 : Nat) (st : State) (h : i1 < 32) :
    decryptBlock2 (i1 + 32) i2 i3 i4 st = decryptBlock2 i1 i2 i3 i4 st ∧
    decryptBlock3 (i1 + 32) i2 i3 i4 st = decryptBlock3 i1 i2 i3 i4 st ∧
    decryptBlock4 (i1 + 32) i2 i3 i4 st = decryptBlock4 i1 i2 i3 i4 st ∧
    "+bwN".toList ≠ "ebwN".toList ∧
    ValidCiphertext "+bwN".toList 1 0 ∧ ValidCiphertext "ebwN".toList 1 0 ∧
    decrypt "+bwN".toList [] = decrypt "ebwN".toList [] ∧
    decrypt "ebwN".toList [] = some [42, 108, 60, 10] := by
  have e2 : decryptBlock2 (i1 + 32) i2 i3 i4 st = decryptBlock2 i1 i2 i3 i4 st := by
    rw [decryptBlock2_emit, decryptBlock2_emit]
    exact emit_congr _ _ st (raw_byte1_high_bit i1 i2 h)
  have e3 : decryptBlock3 (i1 + 32) i2 i3 i4 st = decryptBlock3 i1 i2 i3 i4 st := by
    rw [decryptBlock3_emit, decryptBlock3_emit, e2]
  have e4 : decryptBlock4 (i1 + 32) i2 i3 i4 st = decryptBlock4 i1 i2 i3 i4 st := by
    rw [decryptBlock4_emit, decryptBlock4_emit, e3]
  exact ⟨e2, e3, e4, by decide, by decide, by decide, by decide, by decide⟩

theorem high_bit_discarded_witness :
    30 < 32 ∧
    decryptBlock4 (30 + 32) 27 48 13 { cout := [], transposition := 79 } =
      decryptBlock4 30 27 48 13 { cout := [], transposition := 79 } :=
  ⟨by decide,
    (high_bit_discarded 30 27 48 13 { cout := [], transposition := 79 } (by decide)).2.2.1⟩

/-- C20: keystream period 128. With `t + 128 + 3 < 2 ^ 64` every variant
appends the same bytes when started with counter `t + 128` as when started
with counter `t`; more generally the bytes are the same for every counter with
the same residue modulo 128 as `t`. -/
theorem keystream_period (i1 i2 i3 i4 t : Nat) (out : List Nat)
    (ht : t + 128 + 3 < 2 ^ 64) :
    ((decryptBlock2 i1 i2 i3 i4 { cout := out, transposition := t + 128 }).cout =
        (decryptBlock2 i1 i2 i3 i4 { cout := out, transposition := t }).cout ∧
      (decryptBlock3 i1 i2 i3 i4 { cout := out, transposition := t + 128 }).cout =
        (decryptBlock3 i1 i2 i3 i4 { cout := out, transposition := t }).cout ∧
      (decryptBlock4 i1 i2 i3 i4 { cout := out, transposition := t + 128 }).cout =
        (decryptBlock4 i1 i2 i3 i4 { cout := out, transposition := t }).cout) ∧
    (∀ t1, t1 + 3 < 2 ^ 64 → t1 % 128 = t % 128 →
      (decryptBlock2 i1 i2 i3 i4 { cout := out, transposition := t1 }).cout =
        (decryptBlock2 i1 i2 i3 i4 { cout := out, transposition := t }).cout ∧
      (decryptBlock3 i1 i2 i3 i4 { cout := out, transposition := t1 }).cout =
        (decryptBlock3 i1 i2 i3 i4 { cout := out, transposition := t }).cout ∧
      (decryptBlock4 i1 i2 i3 i4 { cout := out, transposition := t1 }).cout =
        (decryptBlock4 i1 i2 i3 i4 { cout := out, transposition := t }).cout) := by
  have h0 : t + 3 < SIZE := by unfold SIZE; omega
  have key : ∀ t1, t1 + 3 < SIZE → t1 % 128 = t % 128 →
      (decryptBlock2 i1 i2 i3 i4 { cout := out, transposition := t1 }).cout =
        (decryptBlock2 i1 i2 i3 i4 { cout := out, transposition := t }).cout ∧
      (decryptBlock3 i1 i2 i3 i4 { cout := out, transposition := t1 }).cout =
        (decryptBlock3 i1 i2 i3 i4 { cout := out, transposition := t }).cout ∧
      (decryptBlock4 i1 i2 i3 i4 { cout := out, transposition := t1 }).cout =
        (decryptBlock4 i1 i2 i3 i4 { cout := out, transposition := t }).cout := by
    intro t1 h2 hres
    refine ⟨?_, ?_, ?_⟩
    · rw [decryptBlock2_eq _ _ _ _ _ _ (by omega), decryptBlock2_eq _ _ _ _ _ _ (by omega),
        unmask_congr _ _ t1 t rfl hres]
    · rw [decryptBlock3_eq _ _ _ _ _ _ (by omega), decryptBlock3_eq _ _ _ _ _ _ (by omega),
        unmask_congr _ _ t1 t rfl hres, unmask_congr _ _ (t1 + 1) (t + 1) rfl (by omega)]
    · rw [decryptBlock4_eq _ _ _ _ _ _ h2, decryptBlock4_eq _ _ _ _ _ _ h0,
        unmask_congr _ _ t1 t rfl hres, unmask_congr _ _ (t1 + 1) (t + 1) rfl (by omega),
        unmask_congr _ _ (t1 + 2) (t + 2) rfl (by omega)]
  exact ⟨key (t + 128) ht (by omega), key⟩

theorem keystream_period_witness :
    79 + 128 + 3 < 2 ^ 64 ∧
    (decryptBlock4 30 27 48 13 { cout := [], transposition := 79 + 128 }).cout =
      (decryptBlock4 30 27 48 13 { cout := [], transposition := 79 }).cout ∧
    (decryptBlock4 30 27 48 13 { cout := [], transposition := 335 }).cout =
      (decryptBlock4 30 27 48 13 { cout := [], transposition := 79 }).cout :=
  have h := keystream_period 30 27 48 13 79 [] (by decide)
  ⟨by decide, h.1.2.2, (h.2 335 (by decide) (by decide)).2.2⟩

end CryptoChallenge
